import Mathlib

/-!
# Verification of the brand-check hybrid search service

A shallow embedding of the search/indexing core of the brand-check
repository (`src/services/searchService.ts`, `src/routes/search.ts`,
`src/utils/markdown.ts`), together with proofs of the specified
properties.

Modelling conventions:
* JavaScript strings are modelled as `List Char` (`Str`); the handful of
  string operations the code uses (`trim`, `toLowerCase`, `split`,
  substring matching) are defined here by recursion so they can be
  reasoned about directly.
* JavaScript numbers are modelled as exact rationals (`ℚ`); `Math.sqrt`
  is modelled by `Rat.sqrt`, which agrees with the real square root on
  perfect squares (every concrete input used below has perfect-square
  norms, so no approximation is involved there).
* Fallible code (`throw` / uncaught exceptions) is modelled with
  `Except String`.
-/

namespace BrandCheck

/-- JS strings, modelled as lists of characters. -/
abbrev Str := List Char

/-- Model of the JS `\s` character class / `String.trim` whitespace test. -/
def isWs (c : Char) : Bool := c.isWhitespace

/-- A "word character" for the purposes of the JS `\b` assertion
(`[A-Za-z0-9_]`; the sources only use ASCII). -/
def isWordChar (c : Char) : Bool := c.isAlphanum || c = '_'

/-- Model of `String.prototype.toLowerCase` (ASCII; the repository's data
is ASCII markdown). -/
def lower (s : Str) : Str := s.map Char.toLower

/-- Drop leading whitespace. -/
def trimLeft : Str → Str
  | [] => []
  | c :: cs => if isWs c then trimLeft cs else c :: cs

/-- Drop trailing whitespace (structural recursion from the left). -/
def trimRight : Str → Str
  | [] => []
  | c :: cs =>
    let r := trimRight cs
    if r = [] && isWs c then [] else c :: r

/-- Model of `String.prototype.trim`. -/
def trimStr (s : Str) : Str := trimLeft (trimRight s)

/-- Model of `text.split('\n')`. -/
def splitLines : Str → List Str
  | [] => [[]]
  | c :: cs =>
    if c = '\n' then [] :: splitLines cs
    else
      match splitLines cs with
      | [] => [[c]]
      | l :: ls => (c :: l) :: ls

/-- `Array.prototype.join('\n')` over line lists. -/
def joinLines : List Str → Str
  | [] => []
  | [l] => l
  | l :: ls => l ++ '\n' :: joinLines ls

/-- The maximal runs of characters satisfying `p`, in order. -/
def runsWhere (p : Char → Bool) : Str → List Str
  | [] => []
  | [c] => if p c then [[c]] else []
  | c :: d :: ds =>
    if !p c then runsWhere p (d :: ds)
    else if !p d then [c] :: runsWhere p (d :: ds)
    else
      match runsWhere p (d :: ds) with
      | [] => [[c]]
      | w :: ws => (c :: w) :: ws

/-- The maximal non-whitespace runs of a string.  `s.split(/\s+/)`
produces exactly these fields, plus possibly empty fields at the two
ends; every use in the sources immediately filters the fields by
`length > 2`, for which the two descriptions agree. -/
def wordsOf : Str → List Str := runsWhere (fun c => !isWs c)

/-- Number of non-overlapping occurrences of `needle` in `hay`, scanning
left to right: the match-count of `hay.match(new RegExp(needle, 'g'))`
for a literal (metacharacter-free) `needle`. -/
def countOccs (needle hay : Str) : Nat :=
  match needle, hay with
  | [], _ => 0
  | _ :: _, [] => 0
  | n :: ns, c :: cs =>
    if (n :: ns) <+: (c :: cs) then
      1 + countOccs (n :: ns) ((c :: cs).drop (n :: ns).length)
    else
      countOccs (n :: ns) cs
termination_by hay.length
decreasing_by
  · simp only [List.length_drop, List.length_cons]
    omega
  · simp

/-! ## Data model (`src/types`) -/

/-- `SearchConfig` from `src/types`.  `minScore` and the scores below are
JS numbers, modelled as exact rationals. -/
structure SearchConfig where
  maxResults : Nat
  minScore : ℚ
  enableSemanticSearch : Bool
  enableKeywordSearch : Bool
deriving DecidableEq, Repr

/-- The initial configuration of `SearchService` (`searchService.ts`,
lines 8–13). -/
def defaultConfig : SearchConfig :=
  { maxResults := 10, minScore := 1/10,
    enableSemanticSearch := true, enableKeywordSearch := true }

/-- `DocumentSection` from `src/types`. -/
structure DocumentSection where
  id : String
  slug : Str
  title : Str
  content : Str
  level : Nat
  startLine : Int := 0
  endLine : Int := 0
  embedding : Option (List ℚ) := none
deriving DecidableEq, Repr

/-- `SearchResult` from `src/types`.  The source fields `section` and
`matches` are Lean keywords/reserved syntax, so they are called `sec`
and `matched` here. -/
structure SearchResult where
  sec : DocumentSection
  score : ℚ
  matched : List Str
deriving DecidableEq, Repr

/-- `SearchResponse` from `src/types`; the wall-clock `searchTime` field
is not modelled. -/
structure SearchResponse where
  query : Str
  results : List SearchResult
  totalResults : Nat
deriving DecidableEq, Repr

/-- The mutable state of a `SearchService` instance: its indexed
sections and its configuration. -/
structure ServiceState where
  sections : List DocumentSection
  config : SearchConfig
deriving DecidableEq, Repr

/-! ## The vectorizer

Modelled from the spec: the `EmbeddingService` implementation
(`src/services/embeddingService.ts`) is not among the available sources,
only its call sites are.  Spec §4.2 specifies it: a pure deterministic
`embed(text) -> vector` that lower-cases, tokenizes on word boundaries,
accumulates term-frequency counts into a fixed-size vector through a
hashing scheme, and L2-normalizes; `Math.sqrt` is modelled by
`Rat.sqrt`, which is exact on perfect squares. -/

/-- The fixed embedding dimension of the modelled vectorizer. -/
def embedDim : Nat := 8

/-- Modelled from the spec: the hashing scheme mapping a token to a
coordinate. -/
def tokenCoord (t : Str) : Nat :=
  (t.foldl (fun a c => a + c.toNat) 0) % embedDim

/-- The all-zero vector. -/
def zeroVec (n : Nat) : List ℚ := List.replicate n 0

/-- Add 1 to coordinate `i` of `v`. -/
def addAt : List ℚ → Nat → List ℚ
  | [], _ => []
  | x :: xs, 0 => (x + 1) :: xs
  | x :: xs, n + 1 => x :: addAt xs n

/-- Modelled from the spec: term-frequency counts of the lower-cased
word tokens of `text`, hashed into `embedDim` coordinates. -/
def rawCounts (text : Str) : List ℚ :=
  (runsWhere isWordChar (lower text)).foldl
    (fun v t => addAt v (tokenCoord t)) (zeroVec embedDim)

/-- Squared L2 norm. -/
def normSq (a : List ℚ) : ℚ := (a.map fun x => x * x).sum

/-- Modelled from the spec: L2 normalization (a zero vector is left
unchanged rather than divided by zero). -/
def l2normalize (v : List ℚ) : List ℚ :=
  let n := normSq v
  if n = 0 then v else v.map (· / Rat.sqrt n)

/-- Modelled from the spec: `embeddingService.generateEmbedding`. -/
def generateEmbedding (text : Str) : List ℚ :=
  l2normalize (rawCounts text)

/-- `cosineSimilarity` (`searchService.ts`, lines 177–194): throws on a
dimension mismatch, returns 0 when either vector has zero magnitude. -/
def cosineSimilarity (a b : List ℚ) : Except String ℚ :=
  if a.length ≠ b.length then .error "Vector dimensions must match"
  else
    let dotProduct := (List.zipWith (· * ·) a b).sum
    let normA := (a.map fun x => x * x).sum
    let normB := (b.map fun x => x * x).sum
    let magnitude := Rat.sqrt normA * Rat.sqrt normB
    .ok (if magnitude = 0 then 0 else dotProduct / magnitude)

/-! ## The JS regular-expression fragment

`keywordSearch` and `findMatches` interpolate query terms into
`new RegExp(...)` patterns without escaping.  The JS regex engine is
modelled on the pattern classes this development exercises:

* a term consisting solely of alphanumeric characters is a literal
  pattern: it matches itself, and with the `g` flag the match count is
  the number of non-overlapping occurrences;
* a pattern with unbalanced group parentheses (such as `(((`) raises
  `SyntaxError` at `new RegExp` construction time;
* any other metacharacter pattern compiles but its match semantics are
  outside the modelled fragment (the model reports no matches there; no
  claim below depends on that branch). -/

/-- A term that the model treats as a literal regex pattern. -/
def isPlainTerm (t : Str) : Bool := !t.isEmpty && t.all Char.isAlphanum

/-- Group parentheses balance check (the `SyntaxError` cause exercised
below). -/
def parenScan : Str → Int → Bool
  | [], acc => acc = 0
  | c :: cs, acc =>
    if c = '(' then parenScan cs (acc + 1)
    else if c = ')' then decide (0 < acc) && parenScan cs (acc - 1)
    else parenScan cs acc

/-- Whether `new RegExp(pat)` succeeds in the modelled fragment. -/
def regexCompiles (pat : Str) : Bool := parenScan pat 0

/-- Match count of `text.match(new RegExp(pat, 'g'))` in the modelled
fragment. -/
def regexCountMatches (pat text : Str) : Except String Nat :=
  if isPlainTerm pat then .ok (countOccs pat text)
  else if regexCompiles pat then .ok 0
  else .error "SyntaxError: Invalid regular expression"

/-- Whether a character position is a `\b` word boundary relative to the
neighbouring character. -/
def boundaryOk : Option Char → Bool
  | none => true
  | some p => !isWordChar p

/-- Scan for case-insensitive word-boundary occurrences of the
(lower-case) literal term `t`, returning the matched substrings in
original casing: `content.match(new RegExp('\\b' + t + '\\b', 'gi'))`
for a literal `t`. -/
def wbScan (t : Str) (prev : Option Char) (rest : Str) : List Str :=
  match t, rest with
  | [], _ => []
  | _ :: _, [] => []
  | t0 :: ts, c :: cs =>
    let tt := t0 :: ts
    if lower ((c :: cs).take tt.length) = tt
        && boundaryOk prev
        && boundaryOk ((c :: cs).drop tt.length).head? then
      (c :: cs).take tt.length ::
        wbScan tt ((c :: cs).take tt.length).getLast? ((c :: cs).drop tt.length)
    else
      wbScan tt (some c) cs
termination_by rest.length
decreasing_by
  · simp only [List.length_drop, List.length_cons]
    omega
  · simp

/-- Word-boundary matches of one term: `findMatches`'s per-term regex in
the modelled fragment. -/
def findMatchesTerm (t content : Str) : Except String (List Str) :=
  if isPlainTerm t then .ok (wbScan t none content)
  else if regexCompiles t then .ok []
  else .error "SyntaxError: Invalid regular expression"

/-- `[...new Set(xs)]`: deduplication keeping first occurrences. -/
def jsDedupAux : List Str → List Str → List Str
  | _, [] => []
  | seen, x :: xs =>
    if x ∈ seen then jsDedupAux seen xs else x :: jsDedupAux (x :: seen) xs

/-- `[...new Set(xs)]`. -/
def jsDedup (l : List Str) : List Str := jsDedupAux [] l

/-- The query tokenization shared by `keywordSearch` and `findMatches`:
`query.toLowerCase().split(/\s+/).filter(term => term.length > 2)`. -/
def queryTermsOf (q : Str) : List Str :=
  (wordsOf (lower q)).filter fun t => 2 < t.length

/-- The term loop of `findMatches`: per-term matches, concatenated in
term order (the source `push`es each term's matches), first regex error
propagating. -/
def findMatchesTerms (content : Str) : List Str → Except String (List Str)
  | [] => .ok []
  | t :: ts => do
    let m ← findMatchesTerm t content
    let rest ← findMatchesTerms content ts
    pure (m ++ rest)

/-- `findMatches` (`searchService.ts`, lines 196–209). -/
def findMatches (query content : Str) : Except String (List Str) := do
  let all ← findMatchesTerms content (queryTermsOf query)
  pure (jsDedup all)

/-! ## The hybrid search engine (`searchService.ts`) -/

/-- The inner term loop of `keywordSearch` (lines 125–135): raw score
`titleMatches * 3 + contentMatches` summed over the query terms.  (The
loop also accumulates a local `matches` array, but the pushed result
discards it in favour of `findMatches`; the model follows the output.) -/
def sectionRawScore : List Str → Str → Str → Except String Nat
  | [], _, _ => .ok 0
  | t :: ts, title, content => do
    let titleMatches ← regexCountMatches t title
    let contentMatches ← regexCountMatches t content
    let rest ← sectionRawScore ts title content
    pure (titleMatches * 3 + contentMatches + rest)

/-- The candidate-building loop of `keywordSearch` (lines 118–147): a
section with positive raw score enters with score
`Math.min(raw / (termCount * 5), 1)`; a zero raw score excludes it. -/
def keywordCandidates (terms : List Str) (q : Str) :
    List DocumentSection → Except String (List SearchResult)
  | [] => .ok []
  | s :: ss => do
    let raw ← sectionRawScore terms (lower s.title) (lower s.content)
    if 0 < raw then
      let m ← findMatches q s.content
      let rest ← keywordCandidates terms q ss
      pure ({ sec := s,
              score := min ((raw : ℚ) / (terms.length * 5)) 1,
              matched := m } :: rest)
    else
      keywordCandidates terms q ss

/-- Stable insertion of `r` into a score-descending list, after all
entries whose score is ≥ `r.score`. -/
def insDesc (r : SearchResult) : List SearchResult → List SearchResult
  | [] => [r]
  | x :: xs => if r.score ≤ x.score then x :: insDesc r xs else r :: x :: xs

/-- `results.sort((a, b) => b.score - a.score)`.  JS `Array.sort` is
stable; since comparison by score is a total preorder, the stable
descending sort is uniquely determined, and insertion after equal keys
reproduces it. -/
def jsSortDesc (l : List SearchResult) : List SearchResult :=
  l.foldl (fun acc r => insDesc r acc) []

/-- `keywordSearch` (lines 114–150): candidates, sorted by descending
score, truncated to `maxResults`. -/
def keywordSearch (secs : List DocumentSection) (q : Str)
    (maxResults : Nat) : Except String (List SearchResult) := do
  let cands ← keywordCandidates (queryTermsOf q) q secs
  pure ((jsSortDesc cands).take maxResults)

/-- The section loop of `semanticSearch` (lines 92–104): skip sections
without an embedding, keep those with `cosineSimilarity ≥ minScore`.
Errors (dimension mismatch, regex failure inside `findMatches`)
propagate out of the loop to the enclosing `try`. -/
def semanticCandidates (qe : List ℚ) (cfg : SearchConfig) (q : Str) :
    List DocumentSection → Except String (List SearchResult)
  | [] => .ok []
  | s :: ss =>
    match s.embedding with
    | none => semanticCandidates qe cfg q ss
    | some e => do
      let similarity ← cosineSimilarity qe e
      if cfg.minScore ≤ similarity then
        let m ← findMatches q s.content
        let rest ← semanticCandidates qe cfg q ss
        pure ({ sec := s, score := similarity, matched := m } :: rest)
      else
        semanticCandidates qe cfg q ss

/-- `semanticSearch` (lines 82–112): embed the query, score every
section, sort and truncate — all inside a `try` whose `catch` logs and
returns `[]`.  The modelled vectorizer is always ready (`isReady`); the
not-ready path likewise contributes `[]`. -/
def semanticSearch (secs : List DocumentSection) (cfg : SearchConfig)
    (q : Str) (maxResults : Nat) : List SearchResult :=
  let attempt : Except String (List SearchResult) := do
    let qe := generateEmbedding q
    let results ← semanticCandidates qe cfg q secs
    pure ((jsSortDesc results).take maxResults)
  match attempt with
  | .ok l => l
  | .error _ => []

/-- `merged.set(id, result)` for the semantic loop of `mergeResults`
(lines 156–158): insert at the end, or overwrite the value at the
existing key's original position. -/
def mergeSet (m : List SearchResult) (r : SearchResult) :
    List SearchResult :=
  if m.any fun x => x.sec.id = r.sec.id then
    m.map fun x => if x.sec.id = r.sec.id then r else x
  else m ++ [r]

/-- The score combination for a section present in both candidate sets
(lines 163–166): `0.6 × existing + 0.4 × keyword`, matches unioned. -/
def mergeCombine (x r : SearchResult) : SearchResult :=
  { x with score := x.score * (6/10 : ℚ) + r.score * (4/10 : ℚ),
           matched := jsDedup (x.matched ++ r.matched) }

/-- One step of the keyword loop of `mergeResults` (lines 161–170). -/
def mergeStep (m : List SearchResult) (r : SearchResult) :
    List SearchResult :=
  if m.any fun x => x.sec.id = r.sec.id then
    m.map fun x => if x.sec.id = r.sec.id then mergeCombine x r else x
  else m ++ [r]

/-- The union-by-section-identity map built by `mergeResults`
(lines 153–170), in `Map` insertion order. -/
def mergedList (semRes kwRes : List SearchResult) : List SearchResult :=
  kwRes.foldl mergeStep (semRes.foldl mergeSet [])

/-- `mergeResults` (lines 152–175). -/
def mergeResults (semRes kwRes : List SearchResult) (maxResults : Nat) :
    List SearchResult :=
  (jsSortDesc (mergedList semRes kwRes)).take maxResults

/-- `search` (lines 45–80).  `limit = maxResults || config.maxResults`
(`0` is falsy).  Failures inside `keywordSearch` reach the outer catch,
which re-throws them to the caller. -/
def search (st : ServiceState) (q : Str) (maxResults? : Option Nat) :
    Except String SearchResponse := do
  let limit := match maxResults? with
    | some n => if n = 0 then st.config.maxResults else n
    | none => st.config.maxResults
  let semRes :=
    if st.config.enableSemanticSearch then
      semanticSearch st.sections st.config q limit
    else []
  let results ←
    if st.config.enableKeywordSearch then do
      let kw ← keywordSearch st.sections q limit
      pure (mergeResults semRes kw limit)
    else pure semRes
  let final := (jsSortDesc results).take limit
  pure { query := q, results := final, totalResults := final.length }

/-- `initialize` (lines 19–43): store the given sections, each with an
embedding of `"${title} ${content}"` generated by the vectorizer. -/
def initializeService (st : ServiceState) (secs : List DocumentSection) :
    ServiceState :=
  { st with
    sections := secs.map fun s =>
      { s with
        embedding := some (generateEmbedding (s.title ++ ' ' :: s.content)) } }

/-- `updateSections` (lines 211–216) re-initializes with the new
sections.  The source fires the rebuild asynchronously without awaiting
it; the model captures the state once that triggered rebuild has
completed, which is what "after `updateSections` completes" quantifies
over in §8's testable property. -/
def updateSections (st : ServiceState) (secs : List DocumentSection) :
    ServiceState :=
  initializeService st secs

/-! ## Configuration (`getConfig` / `updateConfig`) -/

/-- `Partial<SearchConfig>`: each field optionally present. -/
structure SearchConfigPatch where
  maxResults : Option Nat := none
  minScore : Option ℚ := none
  enableSemanticSearch : Option Bool := none
  enableKeywordSearch : Option Bool := none
deriving DecidableEq, Repr

/-- `updateConfig` (lines 222–225): `{ ...this.config, ...config }` —
present fields overwrite, absent fields keep their value. -/
def updateConfig (c : SearchConfig) (p : SearchConfigPatch) : SearchConfig :=
  { maxResults := p.maxResults.getD c.maxResults,
    minScore := p.minScore.getD c.minScore,
    enableSemanticSearch := p.enableSemanticSearch.getD c.enableSemanticSearch,
    enableKeywordSearch := p.enableKeywordSearch.getD c.enableKeywordSearch }

/-- The field-wise copy performed by the spread in `getConfig`
(lines 218–220). -/
def copyConfig (c : SearchConfig) : SearchConfig :=
  { maxResults := c.maxResults, minScore := c.minScore,
    enableSemanticSearch := c.enableSemanticSearch,
    enableKeywordSearch := c.enableKeywordSearch }

/-- A minimal object heap, to express the aliasing content of
`getConfig`'s copy: config objects addressed by index. -/
abbrev Heap := List SearchConfig

/-- Read a heap cell. -/
def heapGet (h : Heap) (r : Nat) : SearchConfig := h.getD r defaultConfig

/-- Overwrite a heap cell (a caller mutating an object it holds). -/
def heapSet (h : Heap) (r : Nat) (c : SearchConfig) : Heap := h.set r c

/-- `getConfig` (lines 218–220) against the heap: `return
{ ...this.config }` allocates a fresh object holding a field-wise copy
of the service's config at `r`, and returns its reference. -/
def getConfigRef (h : Heap) (r : Nat) : Nat × Heap :=
  (h.length, h ++ [copyConfig (heapGet h r)])

/-! ## The section extractor (`src/utils/markdown.ts`) -/

/-- Collapse each whitespace run to one `-` (helper for `slugify`). -/
def hyphenCollapse : Str → Str
  | [] => []
  | c :: cs =>
    if isWs c || c = '-' then
      match cs with
      | [] => ['-']
      | d :: _ =>
        if isWs d || d = '-' then hyphenCollapse cs
        else '-' :: hyphenCollapse cs
    else c :: hyphenCollapse cs

/-- Modelled from the spec: `slugify` (`src/utils/slugify.ts`) is not
among the available sources; §4.1 specifies it as "lower-case title,
strip characters outside word/space/hyphen, collapse runs of
whitespace/hyphen into single hyphens". -/
def slugify (t : Str) : Str :=
  hyphenCollapse
    ((lower t).filter fun c => isWordChar c || c = ' ' || c = '-')

/-- Length of the leading `#` run of a line. -/
def headingLevel (l : Str) : Nat := (l.takeWhile (· = '#')).length

/-- Whether a line matches `/^(#{1,6})\s+(.+)$/`: one to six `#`
markers, at least one whitespace character, and at least one further
character (so `"# "` is not a heading, while `"#  "` is, with an empty
trimmed title — regex backtracking lends `(.+)` the final space). -/
def isHeading (l : Str) : Bool :=
  let r := headingLevel l
  let rest := l.drop r
  decide (1 ≤ r) && decide (r ≤ 6) &&
    match rest with
    | [] => false
    | c :: cs => isWs c && !cs.isEmpty

/-- The trimmed captured title `headingMatch[2].trim()`: with `\s+`
greedy and `(.+)` taking the remainder, this equals the trim of
everything after the `#` run. -/
def headingTitle (l : Str) : Str := trimStr (l.drop (headingLevel l))

/-- The in-progress section of the extraction loop (the fields of
`currentSection` before `content`/`endLine` are known). -/
structure OpenSec where
  id : String
  slug : Str
  title : Str
  level : Nat
  startLine : Int
deriving DecidableEq, Repr

/-- Open a section at heading line `line` with index `i` (lines 26–38 of
`markdown.ts`). -/
def openSec (line : Str) (i : Nat) (idx : Nat) : OpenSec :=
  let title := headingTitle line
  { id := "section-" ++ toString idx, slug := slugify title,
    title := title, level := headingLevel line, startLine := (i : Int) }

/-- Close the current section: `content` is the body lines joined with
newlines and trimmed (lines 17–23 and 45–51). -/
def closeSec (o : OpenSec) (body : List Str) (endLine : Int) :
    DocumentSection :=
  { id := o.id, slug := o.slug, title := o.title, level := o.level,
    content := trimStr (joinLines body), startLine := o.startLine,
    endLine := endLine, embedding := none }

/-- The line loop of `extractSections` (lines 11–51): a heading line
closes the previous section (end line `i - 1`) and opens a new one;
other lines accumulate into the current body, or are dropped when no
section is open yet; the last open section closes at `total - 1`. -/
def extractLoop :
    List Str → Nat → Option (OpenSec × List Str) → Nat → Nat →
    List DocumentSection
  | [], _, none, _, _ => []
  | [], _, some (o, body), _, total => [closeSec o body ((total : Int) - 1)]
  | l :: ls, i, cur, idx, total =>
    if isHeading l then
      match cur with
      | some (o, body) =>
        closeSec o body ((i : Int) - 1) ::
          extractLoop ls (i + 1) (some (openSec l i idx, [])) (idx + 1) total
      | none =>
        extractLoop ls (i + 1) (some (openSec l i idx, [])) (idx + 1) total
    else
      match cur with
      | some (o, body) =>
        extractLoop ls (i + 1) (some (o, body ++ [l])) idx total
      | none => extractLoop ls (i + 1) none idx total

/-- `extractSections` (`markdown.ts`, lines 4–54). -/
def extractSections (content : Str) : List DocumentSection :=
  let lines := splitLines content
  extractLoop lines 0 none 0 lines.length

/-- One section rendered back to markdown:
`'#'.repeat(level) + ' ' + title + '\n\n' + content` (lines 105–108). -/
def sectionMarkdown (s : DocumentSection) : Str :=
  List.replicate s.level '#' ++ ' ' :: s.title ++ '\n' :: '\n' :: s.content

/-- `join('\n\n')`. -/
def joinSep2 : List Str → Str
  | [] => []
  | [x] => x
  | x :: y :: ys => x ++ '\n' :: '\n' :: joinSep2 (y :: ys)

/-- `generateMarkdownFromSections` (lines 103–110). -/
def generateMarkdownFromSections (secs : List DocumentSection) : Str :=
  joinSep2 (secs.map sectionMarkdown)

/-! ## Whitespace normalization

The reconstruction property only holds "up to whitespace trimming".
`normDoc` makes that precise: compare documents line by line, reading
each line as its sequence of whitespace-separated words and discarding
blank lines.  Two documents agree under `normDoc` exactly when they
differ only in whitespace: edge trimming, collapsed whitespace runs,
and inserted or dropped blank lines — the changes re-rendering makes
(it trims bodies at their edges, normalizes the heading separator, and
separates blocks with blank lines). -/

/-- Normal form of a list of lines: each line as its words, blank lines
dropped. -/
def normLines (ls : List Str) : List (List Str) :=
  (ls.map wordsOf).filter (· ≠ [])

/-- Normal form of a document. -/
def normDoc (s : Str) : List (List Str) :=
  normLines (splitLines s)

/-- The re-rendered heading line of an open section. -/
def hline (o : OpenSec) : Str :=
  List.replicate o.level '#' ++ ' ' :: o.title

/-! ## The search route (`src/routes/search.ts`) -/

/-- The `GET /api/search` handler (`routes/search.ts`, lines 9–44): the
query must be non-empty, non-blank and at most 500 characters; a
supplied `limit` must parse to a number in `[1, 100]` or the request is
rejected with a `ValidationError` (never clamped).  The `limit`
parameter is modelled as the already-parsed integer; a non-numeric
string (`parseInt` → `NaN`) is likewise rejected by the same guard. -/
def routeLimit (st : ServiceState) (q : Str) :
    Option Int → Except String SearchResponse
  | none => search st (trimStr q) none
  | some n =>
    if n < 1 || 100 < n then
      .error "Limit must be a number between 1 and 100"
    else search st (trimStr q) (some n.toNat)

/-- The guard chain of the handler (see `routeLimit` for the `limit`
handling). -/
def routeSearch (st : ServiceState) (q : Str) (limitParam : Option Int) :
    Except String SearchResponse :=
  if q.isEmpty then .error "Query parameter q is required"
  else if trimStr q = [] then .error "Query cannot be empty"
  else if 500 < q.length then .error "Query too long (max 500 characters)"
  else routeLimit st q limitParam

/-! ## Lookup helper and concrete fixtures -/

/-- First entry of `l` whose section id is `i` (the association the
merge `Map` maintains). -/
def findById : List SearchResult → String → Option SearchResult
  | [], _ => none
  | x :: xs, i => if x.sec.id = i then some x else findById xs i

/-- Position of a result's section among the indexed sections (used to
state the tie-breaking order). -/
def secIdx (secs : List DocumentSection) (r : SearchResult) : Nat :=
  (secs.map (·.id)).indexOf r.sec.id

/-- The ordering a stable descending sort guarantees on its output,
given that the input was pairwise related by `Q`: strictly larger score
first, equal scores in input order. -/
def sortRel (Q : SearchResult → SearchResult → Prop)
    (a b : SearchResult) : Prop :=
  b.score < a.score ∨ (a.score = b.score ∧ Q a b)

/-- Two indexed sections in the style of the repository's test fixtures
(`tests/unit/searchService.test.ts`). -/
def sampleSecs : List DocumentSection :=
  [{ id := "section-1", slug := "introduction".data,
     title := "Introduction".data,
     content := "This is an introduction to the brand guidelines document.".data,
     level := 1 },
   { id := "section-2", slug := "brand-colors".data,
     title := "Brand Colors".data,
     content := "Our brand uses specific colors including blue #3b82f6.".data,
     level := 2 }]

/-- A freshly initialized service over `sampleSecs` with the default
configuration. -/
def sampleState : ServiceState :=
  initializeService { sections := [], config := defaultConfig } sampleSecs

/-- First indexed section of the tie construction: keyword-only (its
vector is orthogonal to the query vector), keyword score clamped to 1. -/
def tieB : DocumentSection :=
  { id := "sec-B", slug := "b".data, title := "cat cat cat cat".data,
    content := "cat".data, level := 1,
    embedding := some [0, 5, 0, 0, 0, 0, 0, 0] }

/-- Second indexed section of the tie construction: cosine similarity 1
with the query vector and keyword score 1, so merged score
`0.6 × 1 + 0.4 × 1 = 1`. -/
def tieA : DocumentSection :=
  { id := "sec-A", slug := "a".data, title := "cat cat cat cat".data,
    content := "cat".data, level := 1,
    embedding := some [5, 0, 0, 0, 0, 0, 0, 0] }

/-- Index order: `tieB` first, `tieA` second. -/
def tieState : ServiceState :=
  { sections := [tieB, tieA], config := defaultConfig }

/-- A section whose stored vector has dimension 2, while every query
embeds to dimension `embedDim = 8`: the §3 invariant is broken, as in a
buggy rebuild. -/
def mismatchSec : DocumentSection :=
  { id := "sec-M", slug := "m".data, title := "xyz things".data,
    content := "xyz appears here".data, level := 1,
    embedding := some [1, 0] }

/-- State holding the mismatched section, default configuration. -/
def mismatchState : ServiceState :=
  { sections := [mismatchSec], config := defaultConfig }

/-- Decidable equality of `Except` results, for evaluating the model on
concrete inputs. -/
instance instDecEqExcept {ε α : Type} [DecidableEq ε] [DecidableEq α] :
    DecidableEq (Except ε α)
  | .ok a, .ok b =>
    if h : a = b then .isTrue (by rw [h])
    else .isFalse fun hc => h (Except.ok.inj hc)
  | .error a, .error b =>
    if h : a = b then .isTrue (by rw [h])
    else .isFalse fun hc => h (Except.error.inj hc)
  | .ok _, .error _ => .isFalse fun hc => Except.noConfusion hc
  | .error _, .ok _ => .isFalse fun hc => Except.noConfusion hc

/-! ## Claim theorems -/

/-- C9. There exists a non-empty, non-whitespace query containing
regular-expression metacharacters (here `"((("`) for which `search`
throws instead of returning a result list: the query term is
interpolated into `new RegExp(term, 'g')` without escaping inside
`keywordSearch`, the resulting `SyntaxError` escapes `keywordSearch`,
and `search`'s catch block re-throws it to the caller. -/
theorem claim_C9_regex_metachar_throws :
    ∃ q : Str, q.any (fun c => !isWs c) ∧
      ∃ e, search sampleState q none = .error e :=
  ⟨"(((".data, by decide,
    "SyntaxError: Invalid regular expression", by with_unfolding_all decide⟩

/-- C3.  The code violates the claim: with a stored section vector of
dimension 2 and a query vector of dimension 8, `cosineSimilarity` does
raise "Vector dimensions must match", but `semanticSearch`'s catch block
(meant for the dependency-not-ready degradation of §7) swallows it and
returns an empty vector candidate set, so `search` succeeds and silently
degrades to keyword-only results — exactly the behaviour the claim (and
spec §7's "fatal/defensive-fail" rule) forbids.  The explicit throw in
`cosineSimilarity` shows the fail-loudly intent; the blanket catch is
the slip. -/
theorem claim_C3_dimension_mismatch_swallowed :
    cosineSimilarity (generateEmbedding "xyz".data)
        [1, 0] = .error "Vector dimensions must match" ∧
    keywordSearch mismatchState.sections "xyz".data 10 =
      .ok [{ sec := mismatchSec, score := 4/5, matched := ["xyz".data] }] ∧
    search mismatchState "xyz".data none =
      .ok { query := "xyz".data,
            results := [{ sec := mismatchSec, score := 4/5,
                          matched := ["xyz".data] }],
            totalResults := 1 } :=
  ⟨by with_unfolding_all decide, by with_unfolding_all decide,
    by with_unfolding_all decide⟩

/-- C4, counterexample.  For the document `"hello"` (no heading lines,
non-whitespace content) the extractor yields zero sections, so the
concatenation of the extracted sections is empty and does not
reconstruct the document up to whitespace trimming. -/
theorem claim_C4_counterexample :
    extractSections "hello".data = [] ∧
    generateMarkdownFromSections (extractSections "hello".data) = [] ∧
    normDoc (generateMarkdownFromSections (extractSections "hello".data)) ≠
      normDoc "hello".data :=
  ⟨by decide, by decide, by decide⟩

/-- C8, counterexample.  Index order is `[tieB, tieA]`.  For the query
`"cat act"` both sections end with final score 1 (`tieA` via
`0.6 × 1 + 0.4 × 1` from both strategies, `tieB` via its keyword score
alone), yet the returned order is `[tieA, tieB]`: the stable final sort
keeps the merge `Map`'s insertion order (vector candidates first), not
the original section order the claim requires for ties. -/
theorem claim_C8_counterexample :
    ∃ rA rB,
      search tieState "cat act".data none =
        .ok { query := "cat act".data, results := [rA, rB],
              totalResults := 2 } ∧
      rA.score = rB.score ∧
      rA.sec.id = tieA.id ∧ rB.sec.id = tieB.id ∧
      secIdx tieState.sections rB < secIdx tieState.sections rA :=
  ⟨{ sec := tieA, score := 1, matched := ["cat".data] },
   { sec := tieB, score := 1, matched := ["cat".data] },
   by with_unfolding_all decide, by decide, by decide, by decide, by decide⟩

/-- A structure copy with all fields read back is the same value. -/
theorem copyConfig_eq (c : SearchConfig) : copyConfig c = c := rfl

/-- C10. `updateConfig` keeps every field absent from the patch
unchanged, and `getConfig` hands out a fresh copy: its reference differs
from the service's, and overwriting the returned object leaves the
service's configuration untouched. -/
theorem claim_C10_config_isolation (c : SearchConfig)
    (p : SearchConfigPatch) (h : Heap) (r : Nat) (v : SearchConfig)
    (hr : r < h.length) :
    ((p.maxResults = none →
        (updateConfig c p).maxResults = c.maxResults) ∧
     (p.minScore = none → (updateConfig c p).minScore = c.minScore) ∧
     (p.enableSemanticSearch = none →
        (updateConfig c p).enableSemanticSearch = c.enableSemanticSearch) ∧
     (p.enableKeywordSearch = none →
        (updateConfig c p).enableKeywordSearch = c.enableKeywordSearch)) ∧
    ((getConfigRef h r).1 ≠ r ∧
     heapGet (getConfigRef h r).2 (getConfigRef h r).1 = heapGet h r ∧
     heapGet (heapSet (getConfigRef h r).2 (getConfigRef h r).1 v) r =
       heapGet h r) := by
  refine ⟨⟨fun hp => ?_, fun hp => ?_, fun hp => ?_, fun hp => ?_⟩,
    ?_, ?_, ?_⟩
  · simp [updateConfig, hp]
  · simp [updateConfig, hp]
  · simp [updateConfig, hp]
  · simp [updateConfig, hp]
  · simp only [getConfigRef]
    omega
  · simp only [getConfigRef, heapGet, copyConfig_eq,
      List.getD_eq_getElem?_getD]
    rw [List.getElem?_concat_length]
    simp
  · simp only [getConfigRef, heapGet, heapSet,
      List.getD_eq_getElem?_getD]
    rw [List.getElem?_set_ne (by omega), List.getElem?_append]
    simp [hr]

/-- C10 witness: the theorem applied at a concrete patch, heap and
mutation. -/
theorem claim_C10_config_isolation_witness :
    0 < ([defaultConfig] : Heap).length ∧
    (((({ minScore := some (1/2) } : SearchConfigPatch).maxResults = none →
        (updateConfig defaultConfig { minScore := some (1/2) }).maxResults =
          defaultConfig.maxResults) ∧
      (({ minScore := some (1/2) } : SearchConfigPatch).minScore = none →
        (updateConfig defaultConfig { minScore := some (1/2) }).minScore =
          defaultConfig.minScore) ∧
      (({ minScore := some (1/2) } : SearchConfigPatch).enableSemanticSearch =
          none →
        (updateConfig defaultConfig
            { minScore := some (1/2) }).enableSemanticSearch =
          defaultConfig.enableSemanticSearch) ∧
      (({ minScore := some (1/2) } : SearchConfigPatch).enableKeywordSearch =
          none →
        (updateConfig defaultConfig
            { minScore := some (1/2) }).enableKeywordSearch =
          defaultConfig.enableKeywordSearch)) ∧
     ((getConfigRef [defaultConfig] 0).1 ≠ 0 ∧
      heapGet (getConfigRef [defaultConfig] 0).2
          (getConfigRef [defaultConfig] 0).1 =
        heapGet [defaultConfig] 0 ∧
      heapGet
          (heapSet (getConfigRef [defaultConfig] 0).2
            (getConfigRef [defaultConfig] 0).1
            { defaultConfig with maxResults := 99 }) 0 =
        heapGet [defaultConfig] 0)) :=
  ⟨by decide,
    claim_C10_config_isolation defaultConfig { minScore := some (1/2) }
      [defaultConfig] 0 { defaultConfig with maxResults := 99 }
      (by decide)⟩

/-- The final truncation of `search`: a successful response never holds
more than the effective limit. -/
theorem search_results_length_le (st : ServiceState) (q : Str) (n : Nat)
    (hn : n ≠ 0) (resp : SearchResponse)
    (hok : search st q (some n) = .ok resp) :
    resp.results.length ≤ n := by
  unfold search at hok
  simp only [hn, if_false, reduceIte] at hok
  by_cases hkw : st.config.enableKeywordSearch
  · simp only [hkw, if_true, reduceIte] at hok
    cases hkwres : keywordSearch st.sections q n with
    | error e => rw [hkwres] at hok; simp [Except.bind] at hok
    | ok kw =>
      rw [hkwres] at hok
      simp only [Except.bind, Except.pure, pure] at hok
      cases hok
      simp
  · simp only [hkw, if_false, reduceIte] at hok
    simp only [Except.bind, Except.pure, pure] at hok
    cases hok
    simp

/-- A lookup in a list with none of the looked-up id is `none`. -/
theorem findById_eq_none_of_forall {l : List SearchResult} {i : String}
    (h : ∀ x ∈ l, x.sec.id ≠ i) : findById l i = none := by
  induction l with
  | nil => rfl
  | cons x xs ih =>
    rw [findById, if_neg (h x (by simp))]
    exact ih fun y hy => h y (by simp [hy])

/-- A successful lookup returns a member carrying the looked-up id. -/
theorem findById_some {l : List SearchResult} {i : String}
    {x : SearchResult} (h : findById l i = some x) :
    x ∈ l ∧ x.sec.id = i := by
  induction l with
  | nil => exact absurd h (by simp [findById])
  | cons y ys ih =>
    rw [findById] at h
    split at h
    · cases h
      exact ⟨by simp, by assumption⟩
    · obtain ⟨hm, hi⟩ := ih h
      exact ⟨by simp [hm], hi⟩

/-- If some member carries the id, the lookup succeeds. -/
theorem findById_isSome {l : List SearchResult} {i : String}
    (h : ∃ x ∈ l, x.sec.id = i) : (findById l i).isSome := by
  induction l with
  | nil => simp at h
  | cons y ys ih =>
    rw [findById]
    split
    · rfl
    · rename_i hy
      obtain ⟨x, hx, hxi⟩ := h
      rcases List.mem_cons.mp hx with hx | hx
      · exact absurd (hx ▸ hxi) hy
      · exact ih ⟨x, hx, hxi⟩

/-- Lookup distributes over a map that preserves section ids. -/
theorem findById_map {f : SearchResult → SearchResult}
    (hf : ∀ x, (f x).sec.id = x.sec.id) (l : List SearchResult)
    (i : String) : findById (l.map f) i = (findById l i).map f := by
  induction l with
  | nil => rfl
  | cons x xs ih =>
    simp only [List.map_cons, findById, hf x]
    split
    · rfl
    · exact ih

/-- Lookup in a concatenation scans the left part first. -/
theorem findById_append (l₁ l₂ : List SearchResult) (i : String) :
    findById (l₁ ++ l₂) i =
      match findById l₁ i with
      | some x => some x
      | none => findById l₂ i := by
  induction l₁ with
  | nil => rfl
  | cons x xs ih =>
    simp only [List.cons_append, findById]
    split
    · rfl
    · exact ih

/-- How one step of the merge loop changes a lookup: the incoming
result's id gets the combined entry (or a fresh entry), every other id
is untouched. -/
theorem findById_mergeStep (m : List SearchResult) (k : SearchResult)
    (i : String) :
    findById (mergeStep m k) i =
      if k.sec.id = i then
        match findById m i with
        | some x => some (mergeCombine x k)
        | none => some k
      else findById m i := by
  unfold mergeStep
  by_cases hany : ∃ x ∈ m, x.sec.id = k.sec.id
  · have hb : (m.any fun x => x.sec.id = k.sec.id) = true := by
      simpa using hany
    rw [if_pos hb]
    rw [findById_map (f := fun x =>
        if x.sec.id = k.sec.id then mergeCombine x k else x)
      (fun x => by by_cases hx : x.sec.id = k.sec.id <;>
        simp [hx, mergeCombine])]
    by_cases hik : k.sec.id = i
    · rw [if_pos hik]
      subst hik
      obtain ⟨x₀, hget⟩ := Option.isSome_iff_exists.mp
        (findById_isSome hany)
      rw [hget]
      have hx₀ : x₀.sec.id = k.sec.id := (findById_some hget).2
      simp [hx₀]
    · rw [if_neg hik]
      cases hres : findById m i with
      | none => rfl
      | some x =>
        have hx : x.sec.id = i := (findById_some hres).2
        have : ¬x.sec.id = k.sec.id := fun hc => hik (hc.symm.trans hx)
        simp [this]
  · have hb : (m.any fun x => x.sec.id = k.sec.id) = false := by
      simpa using fun x hx => (hany ⟨x, hx, ·⟩)
    rw [if_neg (by simp [hb])]
    rw [findById_append]
    have hm : findById m k.sec.id = none :=
      findById_eq_none_of_forall fun x hx hc => hany ⟨x, hx, hc⟩
    by_cases hik : k.sec.id = i
    · subst hik
      rw [hm, if_pos rfl]
      cases hres : findById m k.sec.id with
      | none => simp [findById]
      | some x => exact absurd hres (by simp [hm])
    · rw [if_neg hik]
      cases hres : findById m i with
      | none => simp [findById, hik]
      | some x => rfl

/-- Lookup after folding the keyword loop over an id-unique keyword
list: both present combine, one present passes through. -/
theorem findById_foldl_mergeStep (kw : List SearchResult)
    (m : List SearchResult) (i : String)
    (hkw : (kw.map (·.sec.id)).Nodup) :
    findById (kw.foldl mergeStep m) i =
      match findById m i, findById kw i with
      | some s, some k => some (mergeCombine s k)
      | some s, none => some s
      | none, r => r := by
  induction kw generalizing m with
  | nil =>
    cases hres : findById m i <;> simp [findById, hres]
  | cons k rest ih =>
    simp only [List.map_cons, List.nodup_cons] at hkw
    rw [List.foldl_cons, ih (mergeStep m k) hkw.2,
      findById_mergeStep]
    by_cases hik : k.sec.id = i
    · rw [if_pos hik]
      have hrest : findById rest i = none :=
        findById_eq_none_of_forall fun x hx hc =>
          hkw.1 (by
            rw [hik, ← hc]
            exact List.mem_map_of_mem (fun r => r.sec.id) hx)
      have hcons : findById (k :: rest) i = some k := by
        rw [findById, if_pos hik]
      rw [hrest, hcons]
      cases findById m i <;> rfl
    · rw [if_neg hik]
      have : findById (k :: rest) i = findById rest i := by
        rw [findById, if_neg hik]
      rw [this]

/-- The semantic loop of `mergeResults` over id-unique results just
reproduces them (in insertion order). -/
theorem foldl_mergeSet_eq_append :
    ∀ l : List SearchResult, (l.map (·.sec.id)).Nodup →
      ∀ acc : List SearchResult,
        (∀ x ∈ acc, ∀ y ∈ l, x.sec.id ≠ y.sec.id) →
        l.foldl mergeSet acc = acc ++ l := by
  intro l
  induction l with
  | nil => intro _ acc _; simp
  | cons y ys ih =>
    intro hl acc hdisj
    simp only [List.map_cons, List.nodup_cons] at hl
    have habs : mergeSet acc y = acc ++ [y] := by
      unfold mergeSet
      rw [if_neg]
      simp only [List.any_eq_true, decide_eq_true_eq, not_exists]
      exact fun x hx => hdisj x hx.1 y (by simp) hx.2
    rw [List.foldl_cons, habs, ih hl.2 (acc ++ [y]) ?_]
    · simp
    · intro x hx z hz
      rcases List.mem_append.mp hx with hx | hx
      · exact hdisj x hx z (by simp [hz])
      · have hxy : x = y := by simpa using hx
        subst hxy
        intro hc
        exact hl.1 (by
          rw [hc]
          exact List.mem_map_of_mem (fun r => r.sec.id) hz)

/-- C1.  `mergeResults` unions the two candidate sets by section id: a
section in both sets gets score `0.6 × vectorScore + 0.4 ×
keywordScore` (and unioned match lists); a section in only one set
keeps that set's score unchanged; no other entries appear. -/
theorem claim_C1_merge_union (semRes kwRes : List SearchResult)
    (hsem : (semRes.map (·.sec.id)).Nodup)
    (hkw : (kwRes.map (·.sec.id)).Nodup) (i : String) :
    findById (mergedList semRes kwRes) i =
      match findById semRes i, findById kwRes i with
      | some s, some k =>
        some { s with
               score := s.score * (6/10 : ℚ) + k.score * (4/10 : ℚ),
               matched := jsDedup (s.matched ++ k.matched) }
      | some s, none => some s
      | none, some k => some k
      | none, none => none := by
  unfold mergedList
  rw [foldl_mergeSet_eq_append semRes hsem [] (by simp),
    List.nil_append, findById_foldl_mergeStep kwRes semRes i hkw]
  cases findById semRes i <;> cases findById kwRes i <;> rfl

/-- C1 witness: one section (`tieA`) in both candidate sets, one
(`tieB`) only in the keyword set. -/
theorem claim_C1_merge_union_witness :
    (([{ sec := tieA, score := 3/5, matched := [] }] :
        List SearchResult).map (·.sec.id)).Nodup ∧
    (([{ sec := tieA, score := 1/2, matched := [] },
       { sec := tieB, score := 1, matched := [] }] :
        List SearchResult).map (·.sec.id)).Nodup ∧
    findById
        (mergedList [{ sec := tieA, score := 3/5, matched := [] }]
          [{ sec := tieA, score := 1/2, matched := [] },
           { sec := tieB, score := 1, matched := [] }]) "sec-A" =
      match
        findById [{ sec := tieA, score := 3/5, matched := [] }] "sec-A",
        findById [{ sec := tieA, score := 1/2, matched := [] },
                  { sec := tieB, score := 1, matched := [] }] "sec-A" with
      | some s, some k =>
        some { s with
               score := s.score * (6/10 : ℚ) + k.score * (4/10 : ℚ),
               matched := jsDedup (s.matched ++ k.matched) }
      | some s, none => some s
      | none, some k => some k
      | none, none => none :=
  ⟨by decide, by decide,
    claim_C1_merge_union _ _ (by decide) (by decide) "sec-A"⟩

/-- Evaluation of the raw-score loop when every term is a literal
pattern: the regex counts succeed and sum up. -/
theorem sectionRawScore_plain (title content : Str) :
    ∀ terms : List Str, (∀ t ∈ terms, isPlainTerm t = true) →
      sectionRawScore terms title content =
        .ok ((terms.map fun t =>
          3 * countOccs t title + countOccs t content).sum) := by
  intro terms
  induction terms with
  | nil => intro _; rfl
  | cons t ts ih =>
    intro hp
    have ht : regexCountMatches t title = .ok (countOccs t title) := by
      simp [regexCountMatches, hp t (by simp)]
    have hc : regexCountMatches t content = .ok (countOccs t content) := by
      simp [regexCountMatches, hp t (by simp)]
    rw [sectionRawScore]
    simp only [ht, hc, ih (fun x hx => hp x (by simp [hx])), bind,
      Except.bind, pure, Except.pure, List.map_cons, List.sum_cons,
      Except.ok.injEq]
    omega

/-- The term loop of `findMatches` succeeds on literal terms. -/
theorem findMatchesTerms_plain_ok (content : Str) :
    ∀ ts : List Str, (∀ t ∈ ts, isPlainTerm t = true) →
      ∃ ls, findMatchesTerms content ts = .ok ls := by
  intro ts
  induction ts with
  | nil => intro _; exact ⟨[], rfl⟩
  | cons t tss ih =>
    intro hp
    obtain ⟨ls, hls⟩ := ih fun x hx => hp x (by simp [hx])
    refine ⟨wbScan t none content ++ ls, ?_⟩
    rw [findMatchesTerms]
    simp only [findMatchesTerm, hp t (by simp), if_true, reduceIte,
      hls, bind, Except.bind, pure, Except.pure]

/-- `findMatches` succeeds whenever every query term is a literal
pattern. -/
theorem findMatches_plain_ok (q content : Str)
    (hp : ∀ t ∈ queryTermsOf q, isPlainTerm t = true) :
    ∃ m, findMatches q content = .ok m := by
  obtain ⟨ls, hls⟩ :=
    findMatchesTerms_plain_ok content (queryTermsOf q) hp
  refine ⟨jsDedup ls, ?_⟩
  unfold findMatches
  rw [hls]
  rfl

/-- Characterization of the keyword candidate loop on literal query
terms (shared by the C5 and C7 results below). -/
theorem keywordCandidates_spec (secs : List DocumentSection) (q : Str)
    (hplain : ∀ t ∈ queryTermsOf q, isPlainTerm t = true) :
    ∃ l, keywordCandidates (queryTermsOf q) q secs = .ok l ∧
      l.map (fun r => (r.sec, r.score)) =
        secs.filterMap (fun s =>
          let raw := ((queryTermsOf q).map fun t =>
            3 * countOccs t (lower s.title) +
              countOccs t (lower s.content)).sum
          if 0 < raw then
            some (s, min ((raw : ℚ) / ((queryTermsOf q).length * 5)) 1)
          else none) ∧
      ∀ r ∈ l, 0 ≤ r.score ∧ r.score ≤ 1 := by
  induction secs with
  | nil => exact ⟨[], rfl, rfl, by simp⟩
  | cons s ss ih =>
    obtain ⟨l, hok, hmap, hbound⟩ := ih
    have hraw := sectionRawScore_plain (lower s.title) (lower s.content)
      (queryTermsOf q) hplain
    by_cases hpos : 0 < ((queryTermsOf q).map fun t =>
        3 * countOccs t (lower s.title) +
          countOccs t (lower s.content)).sum
    · obtain ⟨m, hm⟩ := findMatches_plain_ok q s.content hplain
      refine ⟨{ sec := s,
                score := min
                  ((((queryTermsOf q).map fun t =>
                      3 * countOccs t (lower s.title) +
                        countOccs t (lower s.content)).sum : ℚ) /
                    ((queryTermsOf q).length * 5)) 1,
                matched := m } :: l, ?_, ?_, ?_⟩
      · rw [keywordCandidates]
        rw [show sectionRawScore (queryTermsOf q) (lower s.title)
            (lower s.content) =
          .ok (((queryTermsOf q).map fun t =>
            3 * countOccs t (lower s.title) +
              countOccs t (lower s.content)).sum) from hraw]
        simp only [bind, Except.bind, hpos, if_true, reduceIte, hm,
          hok, pure, Except.pure]
      · simp only [List.map_cons, List.filterMap_cons, hpos, if_true,
          reduceIte, hmap]
      · intro r hr
        rcases List.mem_cons.mp hr with hr | hr
        · subst hr
          constructor
          · apply le_min
            · positivity
            · norm_num
          · exact min_le_right _ _
        · exact hbound r hr
    · refine ⟨l, ?_, ?_, hbound⟩
      · rw [keywordCandidates]
        rw [show sectionRawScore (queryTermsOf q) (lower s.title)
            (lower s.content) =
          .ok (((queryTermsOf q).map fun t =>
            3 * countOccs t (lower s.title) +
              countOccs t (lower s.content)).sum) from hraw]
        simp only [bind, Except.bind, hpos, if_false, reduceIte, hok]
      · simp only [List.filterMap_cons, hpos, if_false, reduceIte, hmap]

/-- C5.  For a query whose terms are literal (alphanumeric) patterns,
the keyword strategy admits exactly the sections with positive raw
score `Σ_terms 3×(title occurrences) + (body occurrences)`, reporting
score `raw / (termCount × 5)` clamped to `[0, 1]`; zero raw score
excludes the section. -/
theorem claim_C5_keyword_scoring (secs : List DocumentSection) (q : Str)
    (hplain : ∀ t ∈ queryTermsOf q, isPlainTerm t = true) :
    ∃ l, keywordCandidates (queryTermsOf q) q secs = .ok l ∧
      l.map (fun r => (r.sec, r.score)) =
        secs.filterMap (fun s =>
          let raw := ((queryTermsOf q).map fun t =>
            3 * countOccs t (lower s.title) +
              countOccs t (lower s.content)).sum
          if 0 < raw then
            some (s, min ((raw : ℚ) / ((queryTermsOf q).length * 5)) 1)
          else none) ∧
      ∀ r ∈ l, 0 ≤ r.score ∧ r.score ≤ 1 :=
  keywordCandidates_spec secs q hplain

/-- C5 witness: the sample sections with the query `"brand colors"`. -/
theorem claim_C5_keyword_scoring_witness :
    (∀ t ∈ queryTermsOf "brand colors".data, isPlainTerm t = true) ∧
    (∃ l,
      keywordCandidates (queryTermsOf "brand colors".data)
          "brand colors".data sampleSecs = .ok l ∧
      l.map (fun r => (r.sec, r.score)) =
        sampleSecs.filterMap (fun s =>
          let raw := ((queryTermsOf "brand colors".data).map fun t =>
            3 * countOccs t (lower s.title) +
              countOccs t (lower s.content)).sum
          if 0 < raw then
            some (s, min ((raw : ℚ) /
              ((queryTermsOf "brand colors".data).length * 5)) 1)
          else none) ∧
      ∀ r ∈ l, 0 ≤ r.score ∧ r.score ≤ 1) :=
  ⟨by decide,
    claim_C5_keyword_scoring sampleSecs "brand colors".data (by decide)⟩

/-- A wholly-satisfying string is one single run. -/
theorem runsWhere_all {p : Char → Bool} :
    ∀ {s : Str}, s ≠ [] → (∀ c ∈ s, p c = true) →
      runsWhere p s = [s] := by
  intro s
  induction s with
  | nil => intro h _; exact absurd rfl h
  | cons c cs ih =>
    intro _ hall
    cases cs with
    | nil => rw [runsWhere, if_pos (hall c (by simp))]
    | cons d ds =>
      rw [runsWhere, if_neg (by simp [hall c (by simp)]),
        if_neg (by simp [hall d (by simp)]),
        ih (by simp) fun x hx => hall x (by simp [hx])]

/-- Alphanumeric characters are not whitespace. -/
theorem alnum_not_ws {c : Char} (h : c.isAlphanum = true) :
    isWs c = false := by
  cases hws : isWs c
  · rfl
  · exfalso
    simp only [isWs, Char.isWhitespace, decide_eq_true_eq,
      Bool.or_eq_true, decide_eq_true_eq] at hws
    rcases hws with ((hc | hc) | hc) | hc <;> subst hc <;>
      exact absurd h (by decide)

/-- A single plain term of length `> 2` tokenizes to itself. -/
theorem queryTermsOf_single {term : Str}
    (hplain : isPlainTerm (lower term) = true)
    (hlen : 2 < term.length) :
    queryTermsOf term = [lower term] := by
  simp only [isPlainTerm, Bool.and_eq_true, Bool.not_eq_true',
    List.all_eq_true] at hplain
  unfold queryTermsOf wordsOf
  rw [runsWhere_all (List.isEmpty_eq_false.mp hplain.1)
    (fun c hc => by simp [alnum_not_ws (hplain.2 c hc)])]
  rw [List.filter_cons]
  have : 2 < (lower term).length := by
    simpa [lower] using hlen
  simp [this]

/-- Stable insertion grows the length by one. -/
theorem insDesc_length (r : SearchResult) :
    ∀ l : List SearchResult, (insDesc r l).length = l.length + 1 := by
  intro l
  induction l with
  | nil => rfl
  | cons x xs ih =>
    rw [insDesc]
    split
    · simp [ih]
    · simp

/-- The stable sort preserves length. -/
theorem jsSortDesc_length (l : List SearchResult) :
    (jsSortDesc l).length = l.length := by
  suffices h : ∀ (l acc : List SearchResult),
      (l.foldl (fun acc r => insDesc r acc) acc).length =
        acc.length + l.length by
    simpa using h l []
  intro l
  induction l with
  | nil => intro acc; simp
  | cons x xs ih =>
    intro acc
    rw [List.foldl_cons, ih, insDesc_length]
    simp only [List.length_cons]
    omega

/-- A merge step never empties the map. -/
theorem mergeStep_ne_nil (m : List SearchResult) (r : SearchResult) :
    mergeStep m r ≠ [] := by
  unfold mergeStep
  split
  · rename_i hany
    intro hc
    rw [List.map_eq_nil_iff] at hc
    subst hc
    simp at hany
  · simp

/-- Folding keyword results into a (possibly empty) map yields a
non-empty map whenever there are keyword results. -/
theorem foldl_mergeStep_ne_nil :
    ∀ (kw m : List SearchResult), kw ≠ [] ∨ m ≠ [] →
      kw.foldl mergeStep m ≠ [] := by
  intro kw
  induction kw with
  | nil =>
    intro m h
    rcases h with h | h
    · exact absurd rfl h
    · exact h
  | cons k ks ih =>
    intro m _
    rw [List.foldl_cons]
    exact ih (mergeStep m k) (Or.inr (mergeStep_ne_nil m k))

/-- C7.  After `updateSections(newSections)` (modelled at the point the
triggered rebuild has completed), every plain term of length `> 2`
occurring in some new section's title or body is findable: a search for
that term succeeds and returns at least one result (under the default
configuration shape: keyword strategy enabled, positive result limit). -/
theorem claim_C7_update_findable (st : ServiceState)
    (newSecs : List DocumentSection) (term : Str)
    (hlen : 2 < term.length)
    (hplain : isPlainTerm (lower term) = true)
    (hmax : 0 < st.config.maxResults)
    (hkwflag : st.config.enableKeywordSearch = true)
    (hocc : ∃ s ∈ newSecs,
      0 < 3 * countOccs (lower term) (lower s.title) +
          countOccs (lower term) (lower s.content)) :
    ∃ resp, search (updateSections st newSecs) term none = .ok resp ∧
      0 < resp.results.length := by
  have hq : queryTermsOf term = [lower term] :=
    queryTermsOf_single hplain hlen
  have hplain' : ∀ t ∈ queryTermsOf term, isPlainTerm t = true := by
    rw [hq]
    intro t ht
    rw [List.mem_singleton.mp ht]
    exact hplain
  obtain ⟨l, hok, hmap, _⟩ := keywordCandidates_spec
    (updateSections st newSecs).sections term hplain'
  have hlnil : l ≠ [] := by
    intro hc
    subst hc
    obtain ⟨s, hs, hspos⟩ := hocc
    have hmem := List.mem_map_of_mem
      (fun x : DocumentSection =>
        { x with embedding := some (generateEmbedding (x.title ++ ' ' :: x.content)) })
      hs
    have hall : ∀ x ∈ (updateSections st newSecs).sections,
        (fun s : DocumentSection =>
          let raw := ((queryTermsOf term).map fun t =>
            3 * countOccs t (lower s.title) +
              countOccs t (lower s.content)).sum
          if 0 < raw then
            some (s, min ((raw : ℚ) /
              ((queryTermsOf term).length * 5)) 1)
          else none) x = none := by
      have hfm := hmap.symm
      rw [List.map_nil] at hfm
      exact fun x hx => List.forall_none_of_filterMap_eq_nil hfm x hx
    have hval := hall _ hmem
    rw [hq] at hval
    simp only [List.map_cons, List.map_nil, List.sum_cons,
      List.sum_nil] at hval
    rw [if_pos (by simpa using hspos)] at hval
    exact Option.noConfusion hval
  have hlpos : 0 < l.length := List.length_pos.mpr hlnil
  set limit := st.config.maxResults with hlimit
  have hkwS : keywordSearch (updateSections st newSecs).sections term
      limit = .ok ((jsSortDesc l).take limit) := by
    unfold keywordSearch
    rw [hok]
    rfl
  have hKlen : 0 < ((jsSortDesc l).take limit).length := by
    rw [List.length_take, jsSortDesc_length]
    omega
  have hKnil : (jsSortDesc l).take limit ≠ [] :=
    List.ne_nil_of_length_pos hKlen
  have hcfg : (updateSections st newSecs).config = st.config := rfl
  unfold search
  simp only [hcfg, hkwflag, if_true, reduceIte, hkwS, bind,
    Except.bind, pure, Except.pure]
  refine ⟨_, rfl, ?_⟩
  simp only [mergeResults, mergedList]
  rw [List.length_take, jsSortDesc_length, List.length_take,
    jsSortDesc_length]
  have hMnil := foldl_mergeStep_ne_nil ((jsSortDesc l).take limit)
    ((if st.config.enableSemanticSearch then
        semanticSearch (updateSections st newSecs).sections
          st.config term limit
      else []).foldl mergeSet []) (Or.inl hKnil)
  have hMpos := List.length_pos.mpr hMnil
  rw [← hlimit]
  omega

/-- Stable insertion permutes the inserted element to the front. -/
theorem insDesc_perm (r : SearchResult) :
    ∀ acc : List SearchResult, (insDesc r acc).Perm (r :: acc) := by
  intro acc
  induction acc with
  | nil => exact List.Perm.refl _
  | cons x xs ih =>
    rw [insDesc]
    split
    · exact (List.Perm.cons x ih).trans (List.Perm.swap r x xs)
    · exact List.Perm.refl _

/-- The sorting fold is a permutation of seed and input. -/
theorem foldl_insDesc_perm :
    ∀ l acc : List SearchResult,
      (l.foldl (fun a r => insDesc r a) acc).Perm (acc ++ l) := by
  intro l
  induction l with
  | nil => intro acc; rw [List.foldl_nil, List.append_nil]
  | cons r rs ih =>
    intro acc
    rw [List.foldl_cons]
    refine (ih (insDesc r acc)).trans ?_
    refine (List.Perm.append_right rs (insDesc_perm r acc)).trans ?_
    exact List.perm_middle.symm

/-- `jsSortDesc` permutes its input. -/
theorem jsSortDesc_perm (l : List SearchResult) :
    (jsSortDesc l).Perm l := by
  have h := foldl_insDesc_perm l []
  simpa [jsSortDesc] using h

/-- Stable insertion into a stably-sorted list stays stably sorted,
provided the inserted element came after everything present. -/
theorem pairwise_insDesc {Q : SearchResult → SearchResult → Prop}
    (r : SearchResult) :
    ∀ acc : List SearchResult, acc.Pairwise (sortRel Q) →
      (∀ x ∈ acc, Q x r) →
      (insDesc r acc).Pairwise (sortRel Q) := by
  intro acc
  induction acc with
  | nil => intro _ _; simp [insDesc]
  | cons x xs ih =>
    intro hpw hQ
    rw [List.pairwise_cons] at hpw
    rw [insDesc]
    split
    · rename_i hle
      rw [List.pairwise_cons]
      constructor
      · intro y hy
        rcases List.mem_cons.mp ((insDesc_perm r xs).mem_iff.mp hy) with
          hy | hy
        · subst hy
          rcases lt_or_eq_of_le hle with h | h
          · exact Or.inl h
          · exact Or.inr ⟨h.symm, hQ x (by simp)⟩
        · exact hpw.1 y hy
      · exact ih hpw.2 fun z hz => hQ z (by simp [hz])
    · rename_i hgt
      push_neg at hgt
      rw [List.pairwise_cons]
      constructor
      · intro y hy
        rcases List.mem_cons.mp hy with hy | hy
        · subst hy
          exact Or.inl hgt
        · rcases hpw.1 y hy with h | h
          · exact Or.inl (h.trans hgt)
          · exact Or.inl (h.1 ▸ hgt)
      · exact List.pairwise_cons.mpr hpw

/-- The sorting fold turns pairwise-`Q` input into stably-sorted
output. -/
theorem foldl_insDesc_pairwise {Q : SearchResult → SearchResult → Prop} :
    ∀ l acc : List SearchResult, l.Pairwise Q →
      acc.Pairwise (sortRel Q) → (∀ x ∈ acc, ∀ y ∈ l, Q x y) →
      (l.foldl (fun a r => insDesc r a) acc).Pairwise (sortRel Q) := by
  intro l
  induction l with
  | nil =>
    intro acc _ hacc _
    rw [List.foldl_nil]
    exact hacc
  | cons r rs ih =>
    intro acc hl hacc hdisj
    rw [List.pairwise_cons] at hl
    rw [List.foldl_cons]
    refine ih (insDesc r acc) hl.2
      (pairwise_insDesc r acc hacc fun x hx => hdisj x hx r (by simp))
      ?_
    intro x hx y hy
    rcases List.mem_cons.mp ((insDesc_perm r acc).mem_iff.mp hx) with
      hx | hx
    · subst hx
      exact hl.1 y hy
    · exact hdisj x hx y (by simp [hy])

/-- `jsSortDesc` output is stably sorted with respect to any pairwise
relation of its input. -/
theorem jsSortDesc_pairwise {Q : SearchResult → SearchResult → Prop}
    (l : List SearchResult) (hl : l.Pairwise Q) :
    (jsSortDesc l).Pairwise (sortRel Q) :=
  foldl_insDesc_pairwise l [] hl (by simp) (by simp)

/-- Every list is pairwise related by the trivial relation. -/
theorem pairwise_trivial (l : List SearchResult) :
    l.Pairwise fun _ _ => True := by
  induction l with
  | nil => simp
  | cons x xs ih => simp [ih]

/-- In a duplicate-free list, `indexOf` respects positions. -/
theorem nodup_indexOf_pairwise (ids : List String) (h : ids.Nodup) :
    ids.Pairwise fun a b => ids.indexOf a < ids.indexOf b := by
  rw [List.pairwise_iff_getElem]
  intro i j hi hj hij
  rw [List.indexOf_getElem h i hi, List.indexOf_getElem h j hj]
  exact hij

/-- The keyword candidate loop visits the sections in order: the
sections of its output form a sublist of the input sections. -/
theorem keywordCandidates_sublist (terms : List Str) (q : Str) :
    ∀ (secs : List DocumentSection) (l : List SearchResult),
      keywordCandidates terms q secs = .ok l →
      List.Sublist (l.map (·.sec)) secs := by
  intro secs
  induction secs with
  | nil =>
    intro l hok
    simp only [keywordCandidates, Except.ok.injEq] at hok
    subst hok
    simp
  | cons s ss ih =>
    intro l hok
    simp only [keywordCandidates] at hok
    cases hraw : sectionRawScore terms (lower s.title) (lower s.content)
      with
    | error e =>
      rw [hraw] at hok
      simp [bind, Except.bind] at hok
    | ok raw =>
      rw [hraw] at hok
      simp only [bind, Except.bind] at hok
      by_cases hpos : 0 < raw
      · rw [if_pos hpos] at hok
        cases hm : findMatches q s.content with
        | error e =>
          rw [hm] at hok
          simp at hok
        | ok m =>
          rw [hm] at hok
          cases hrest : keywordCandidates terms q ss with
          | error e =>
            rw [hrest] at hok
            simp at hok
          | ok rest =>
            rw [hrest] at hok
            simp only [pure, Except.pure, Except.ok.injEq] at hok
            subst hok
            simp only [List.map_cons]
            exact (ih rest hrest).cons₂ s
      · rw [if_neg hpos] at hok
        exact (ih l hok).cons s

/-- The keyword loop of `mergeResults` over id-disjoint, id-unique
results appends them in order. -/
theorem foldl_mergeStep_eq_append :
    ∀ kw : List SearchResult, (kw.map (·.sec.id)).Nodup →
      ∀ acc : List SearchResult,
        (∀ x ∈ acc, ∀ y ∈ kw, x.sec.id ≠ y.sec.id) →
        kw.foldl mergeStep acc = acc ++ kw := by
  intro kw
  induction kw with
  | nil => intro _ acc _; simp
  | cons y ys ih =>
    intro hl acc hdisj
    simp only [List.map_cons, List.nodup_cons] at hl
    have habs : mergeStep acc y = acc ++ [y] := by
      unfold mergeStep
      rw [if_neg]
      simp only [List.any_eq_true, decide_eq_true_eq, not_exists]
      exact fun x hx => hdisj x hx.1 y (by simp) hx.2
    rw [List.foldl_cons, habs, ih hl.2 (acc ++ [y]) ?_]
    · simp
    · intro x hx z hz
      rcases List.mem_append.mp hx with hx | hx
      · exact hdisj x hx z (by simp [hz])
      · have hxy : x = y := by simpa using hx
        subst hxy
        intro hc
        exact hl.1 (by
          rw [hc]
          exact List.mem_map_of_mem (fun r => r.sec.id) hz)

/-- Shape of every successful search response: a truncated stable sort
of the merged results; with the vector strategy disabled, those merged
results are empty or come from the keyword candidates alone. -/
theorem search_ok_results (st : ServiceState) (q : Str)
    (lim? : Option Nat) (resp : SearchResponse)
    (hok : search st q lim? = .ok resp) :
    ∃ (results : List SearchResult) (limit : Nat),
      resp.results = (jsSortDesc results).take limit ∧
      (st.config.enableSemanticSearch = false →
        results = [] ∨
        ∃ cands,
          keywordCandidates (queryTermsOf q) q st.sections = .ok cands ∧
          results =
            mergeResults [] ((jsSortDesc cands).take limit) limit) := by
  unfold search at hok
  by_cases hkw : st.config.enableKeywordSearch
  · simp only [hkw, if_true, reduceIte] at hok
    unfold keywordSearch at hok
    cases hc : keywordCandidates (queryTermsOf q) q st.sections with
    | error e =>
      rw [hc] at hok
      simp [bind, Except.bind] at hok
    | ok cands =>
      rw [hc] at hok
      simp only [bind, Except.bind, pure, Except.pure] at hok
      injection hok with hok
      subst hok
      refine ⟨_, _, rfl, fun hsem => Or.inr ⟨cands, rfl, ?_⟩⟩
      rw [hsem]
      simp
  · simp only [hkw, Bool.false_eq_true, if_false, reduceIte, bind,
      Except.bind, pure, Except.pure] at hok
    injection hok with hok
    subst hok
    refine ⟨_, _, rfl, fun hsem => Or.inl ?_⟩
    rw [hsem]
    simp

/-- C8, amended.  Every successful search is ordered by non-increasing
score.  Ties follow the stable-sort order of the merged candidates
(vector-strategy candidates first), not, in general, original section
order; when the vector strategy is disabled — the results come from the
keyword strategy alone — and the indexed section ids are distinct,
equal-score results do appear in original section order. -/
theorem claim_C8_ordering (st : ServiceState) (q : Str)
    (lim? : Option Nat) (resp : SearchResponse)
    (hok : search st q lim? = .ok resp) :
    resp.results.Pairwise (fun a b => b.score ≤ a.score) ∧
    (st.config.enableSemanticSearch = false →
      (st.sections.map (·.id)).Nodup →
      resp.results.Pairwise fun a b =>
        a.score = b.score →
          secIdx st.sections a < secIdx st.sections b) := by
  obtain ⟨results, limit, hres, hsems⟩ :=
    search_ok_results st q lim? resp hok
  constructor
  · rw [hres]
    refine List.Pairwise.sublist (List.take_sublist _ _) ?_
    refine (jsSortDesc_pairwise results (pairwise_trivial results)).imp
      ?_
    intro a b h
    rcases h with h | h
    · exact le_of_lt h
    · exact le_of_eq h.1.symm
  · intro hsem hnodup
    rcases hsems hsem with hnil | ⟨cands, hc, hrescands⟩
    · subst hnil
      rw [hres]
      simp [jsSortDesc]
    · subst hrescands
      rw [hres]
      have hsubs := keywordCandidates_sublist (queryTermsOf q) q
        st.sections cands hc
      have hsecs_pw : st.sections.Pairwise (fun a b =>
          (st.sections.map (·.id)).indexOf a.id <
            (st.sections.map (·.id)).indexOf b.id) := by
        have h := nodup_indexOf_pairwise (st.sections.map (·.id)) hnodup
        rwa [List.pairwise_map] at h
      have hcands_pw : cands.Pairwise (fun a b =>
          secIdx st.sections a < secIdx st.sections b) := by
        have h2 := List.Pairwise.sublist hsubs hsecs_pw
        rw [List.pairwise_map] at h2
        exact h2
      have hcands_ids : (cands.map (·.sec.id)).Nodup := by
        have hsub2 := List.Sublist.map (·.id) hsubs
        rw [List.map_map] at hsub2
        exact List.Sublist.nodup hsub2 hnodup
      have hK_pw : ((jsSortDesc cands).take limit).Pairwise
          (sortRel fun a b =>
            secIdx st.sections a < secIdx st.sections b) :=
        List.Pairwise.sublist (List.take_sublist _ _)
          (jsSortDesc_pairwise cands hcands_pw)
      have hK_ids :
          (((jsSortDesc cands).take limit).map (·.sec.id)).Nodup := by
        have hperm := (jsSortDesc_perm cands).map (·.sec.id)
        have hnodup2 := hperm.symm.nodup hcands_ids
        exact List.Sublist.nodup
          (List.Sublist.map (fun r : SearchResult => r.sec.id)
            (List.take_sublist _ _)) hnodup2
      have hmerge : mergedList [] ((jsSortDesc cands).take limit) =
          (jsSortDesc cands).take limit := by
        unfold mergedList
        rw [show ([] : List SearchResult).foldl mergeSet [] = []
          from rfl]
        rw [foldl_mergeStep_eq_append _ hK_ids [] (by simp)]
        simp
      have step2 : (mergeResults []
          ((jsSortDesc cands).take limit) limit).Pairwise
            (sortRel (sortRel fun a b =>
              secIdx st.sections a < secIdx st.sections b)) := by
        unfold mergeResults
        rw [hmerge]
        exact List.Pairwise.sublist (List.take_sublist _ _)
          (jsSortDesc_pairwise _ hK_pw)
      refine List.Pairwise.sublist (List.take_sublist _ _) ?_
      refine (jsSortDesc_pairwise _ step2).imp ?_
      intro a b h heq
      rcases h with h | h
      · rw [heq] at h
        exact absurd h (lt_irrefl _)
      · rcases h.2 with h2 | h2
        · rw [heq] at h2
          exact absurd h2 (lt_irrefl _)
        · rcases h2.2 with h3 | h3
          · rw [heq] at h3
            exact absurd h3 (lt_irrefl _)
          · exact h3.2

/-- C8 witness: the ordering theorem applied to the concrete tie run. -/
theorem claim_C8_ordering_witness :
    search tieState "cat act".data none =
      .ok { query := "cat act".data,
            results :=
              [{ sec := tieA, score := 1, matched := ["cat".data] },
               { sec := tieB, score := 1, matched := ["cat".data] }],
            totalResults := 2 } ∧
    (({ query := "cat act".data,
        results :=
          [{ sec := tieA, score := 1, matched := ["cat".data] },
           { sec := tieB, score := 1, matched := ["cat".data] }],
        totalResults := 2 } : SearchResponse).results.Pairwise
          (fun a b => b.score ≤ a.score) ∧
      (tieState.config.enableSemanticSearch = false →
        (tieState.sections.map (·.id)).Nodup →
        ({ query := "cat act".data,
           results :=
             [{ sec := tieA, score := 1, matched := ["cat".data] },
              { sec := tieB, score := 1, matched := ["cat".data] }],
           totalResults := 2 } : SearchResponse).results.Pairwise
          fun a b =>
            a.score = b.score →
              secIdx tieState.sections a < secIdx tieState.sections b)) :=
  ⟨by with_unfolding_all decide,
    claim_C8_ordering tieState "cat act".data none _
      (by with_unfolding_all decide)⟩

/-- A leading non-run character does not change the runs. -/
theorem runsWhere_cons_neg {p : Char → Bool} {c : Char}
    (hc : p c = false) (x : Str) :
    runsWhere p (c :: x) = runsWhere p x := by
  cases x with
  | nil => simp [runsWhere, hc]
  | cons d ds => simp [runsWhere, hc]

/-- A trailing non-run character does not change the runs. -/
theorem runsWhere_concat_neg {p : Char → Bool} {c : Char}
    (hc : p c = false) :
    ∀ x : Str, runsWhere p (x ++ [c]) = runsWhere p x := by
  intro x
  induction x with
  | nil => simp [runsWhere, hc]
  | cons d ds ih =>
    cases ds with
    | nil =>
      cases hd : p d <;> simp [runsWhere, hc, hd]
    | cons e es =>
      simp only [List.cons_append] at ih ⊢
      simp only [runsWhere]
      rw [ih]

/-- Leading non-run characters do not change the runs. -/
theorem runsWhere_append_neg_left {p : Char → Bool} :
    ∀ {w : Str}, (∀ c ∈ w, p c = false) →
      ∀ x : Str, runsWhere p (w ++ x) = runsWhere p x := by
  intro w
  induction w with
  | nil => intro _ x; rfl
  | cons c cs ih =>
    intro hw x
    rw [List.cons_append, runsWhere_cons_neg (hw c (by simp)),
      ih fun d hd => hw d (by simp [hd])]

/-- Trailing non-run characters do not change the runs. -/
theorem runsWhere_append_neg_right {p : Char → Bool} :
    ∀ {w : Str}, (∀ c ∈ w, p c = false) →
      ∀ x : Str, runsWhere p (x ++ w) = runsWhere p x := by
  intro w
  induction w with
  | nil => intro _ x; simp
  | cons c cs ih =>
    intro hw x
    have h1 : x ++ c :: cs = (x ++ [c]) ++ cs := by simp
    rw [h1, ih (fun d hd => hw d (by simp [hd])),
      runsWhere_concat_neg (hw c (by simp))]

/-- A full run followed by a separator splits off as one word. -/
theorem runsWhere_run_cons {p : Char → Bool} {c : Char}
    (hc : p c = false) :
    ∀ {w : Str}, w ≠ [] → (∀ d ∈ w, p d = true) →
      ∀ x : Str, runsWhere p (w ++ c :: x) = w :: runsWhere p x := by
  intro w
  induction w with
  | nil => intro h _ _; exact absurd rfl h
  | cons a as ih =>
    intro _ hw x
    cases as with
    | nil =>
      simp only [List.cons_append, List.nil_append, runsWhere,
        hw a (by simp), hc]
      simp [runsWhere_cons_neg hc]
    | cons b bs =>
      have hrec := ih (by simp) (fun d hd => hw d (by simp [hd])) x
      simp only [List.cons_append] at hrec ⊢
      simp only [runsWhere, hw a (by simp), hw b (by simp),
        Bool.not_true, Bool.false_eq_true, if_false, reduceIte]
      rw [hrec]

/-- Every string is whitespace, then its left-trim. -/
theorem trimLeft_decomp :
    ∀ s : Str, ∃ w, (∀ c ∈ w, isWs c = true) ∧ s = w ++ trimLeft s := by
  intro s
  induction s with
  | nil => exact ⟨[], by simp, rfl⟩
  | cons c cs ih =>
    by_cases hc : isWs c
    · obtain ⟨w, hw, hdec⟩ := ih
      refine ⟨c :: w, ?_, ?_⟩
      · intro d hd
        rcases List.mem_cons.mp hd with hd | hd
        · exact hd ▸ hc
        · exact hw d hd
      · rw [trimLeft, if_pos hc, List.cons_append, ← hdec]
    · refine ⟨[], by simp, ?_⟩
      rw [trimLeft, if_neg hc, List.nil_append]

/-- Every string is its right-trim, then whitespace. -/
theorem trimRight_decomp :
    ∀ s : Str, ∃ w, (∀ c ∈ w, isWs c = true) ∧ s = trimRight s ++ w := by
  intro s
  induction s with
  | nil => exact ⟨[], by simp, rfl⟩
  | cons c cs ih =>
    obtain ⟨w, hw, hdec⟩ := ih
    rw [trimRight]
    by_cases hcond : trimRight cs = [] ∧ isWs c = true
    · rw [if_pos (by simp [hcond.1, hcond.2])]
      refine ⟨c :: w, ?_, ?_⟩
      · intro d hd
        rcases List.mem_cons.mp hd with hd | hd
        · exact hd ▸ hcond.2
        · exact hw d hd
      · rw [List.nil_append]
        rw [hcond.1, List.nil_append] at hdec
        rw [← hdec]
    · rw [if_neg (by
        intro hc
        rw [Bool.and_eq_true, decide_eq_true_eq] at hc
        exact hcond ⟨hc.1, hc.2⟩)]
      exact ⟨w, hw, by rw [List.cons_append, ← hdec]⟩

/-- Words are invariant under trimming. -/
theorem wordsOf_trimStr (s : Str) : wordsOf (trimStr s) = wordsOf s := by
  obtain ⟨w2, hw2, hs2⟩ := trimRight_decomp s
  obtain ⟨w1, hw1, hs1⟩ := trimLeft_decomp (trimRight s)
  unfold trimStr wordsOf
  have e1 : runsWhere (fun c => !isWs c) (trimLeft (trimRight s)) =
      runsWhere (fun c => !isWs c) (trimRight s) := by
    conv_rhs => rw [hs1]
    rw [runsWhere_append_neg_left fun c hc => by simp [hw1 c hc]]
  have e2 : runsWhere (fun c => !isWs c) (trimRight s) =
      runsWhere (fun c => !isWs c) s := by
    conv_rhs => rw [hs2]
    rw [runsWhere_append_neg_right fun c hc => by simp [hw2 c hc]]
  rw [e1, e2]

/-- Splitting never yields an empty list of lines. -/
theorem splitLines_ne_nil : ∀ s : Str, splitLines s ≠ [] := by
  intro s
  cases s with
  | nil => simp [splitLines]
  | cons c cs =>
    rw [splitLines]
    split
    · simp
    · split <;> simp

/-- Splitting around an explicit newline splits the parts. -/
theorem splitLines_append :
    ∀ a b : Str,
      splitLines (a ++ '\n' :: b) = splitLines a ++ splitLines b := by
  intro a b
  induction a with
  | nil => simp [splitLines]
  | cons c cs ih =>
    by_cases hc : c = '\n'
    · subst hc
      rw [List.cons_append, splitLines, if_pos rfl, ih,
        show splitLines ('\n' :: cs) = [] :: splitLines cs from by
          rw [splitLines, if_pos rfl]]
      rfl
    · rw [List.cons_append, splitLines, if_neg hc, ih]
      cases hcs : splitLines cs with
      | nil => exact absurd hcs (splitLines_ne_nil cs)
      | cons l ls =>
        rw [show splitLines (c :: cs) = (c :: l) :: ls from by
          rw [splitLines, if_neg hc, hcs]]
        simp

/-- Lines produced by splitting contain no newline. -/
theorem splitLines_no_newline :
    ∀ (s : Str) (l : Str), l ∈ splitLines s → '\n' ∉ l := by
  intro s
  induction s with
  | nil =>
    intro l hl
    simp only [splitLines, List.mem_singleton] at hl
    subst hl
    simp
  | cons c cs ih =>
    intro l hl
    by_cases hc : c = '\n'
    · subst hc
      rw [splitLines, if_pos rfl] at hl
      rcases List.mem_cons.mp hl with hl | hl
      · subst hl; simp
      · exact ih l hl
    · rw [splitLines, if_neg hc] at hl
      cases hcs : splitLines cs with
      | nil => exact absurd hcs (splitLines_ne_nil cs)
      | cons m ms =>
        rw [hcs] at hl
        rcases List.mem_cons.mp hl with hl | hl
        · subst hl
          intro hmem
          rcases List.mem_cons.mp hmem with hmem | hmem
          · exact hc hmem.symm
          · exact ih m (by simp [hcs]) hmem
        · exact ih l (by simp [hcs, hl])

/-- A newline-free string is a single line. -/
theorem splitLines_single :
    ∀ l : Str, '\n' ∉ l → splitLines l = [l] := by
  intro l
  induction l with
  | nil => intro _; rfl
  | cons c cs ih =>
    intro h
    have hc : ¬c = '\n' := fun hc => h (by simp [hc])
    rw [splitLines, if_neg hc, ih (fun hm => h (by simp [hm]))]

/-- Splitting inverts joining for newline-free lines. -/
theorem splitLines_joinLines :
    ∀ ls : List Str, ls ≠ [] → (∀ l ∈ ls, '\n' ∉ l) →
      splitLines (joinLines ls) = ls := by
  intro ls
  induction ls with
  | nil => intro h _; exact absurd rfl h
  | cons l ls ih =>
    intro _ hnl
    cases ls with
    | nil => exact splitLines_single l (hnl l (by simp))
    | cons m ms =>
      have hj : joinLines (l :: m :: ms) = l ++ '\n' :: joinLines (m :: ms) :=
        rfl
      rw [hj, splitLines_append, splitLines_single l (hnl l (by simp)),
        ih (List.cons_ne_nil m ms) (fun x hx => hnl x (by simp [hx]))]
      rfl

/-- `normLines` distributes over concatenation. -/
theorem normLines_append (a b : List Str) :
    normLines (a ++ b) = normLines a ++ normLines b := by
  simp [normLines]

/-- `normLines` over a cons: keep the line's words unless blank. -/
theorem normLines_cons (x : Str) (xs : List Str) :
    normLines (x :: xs) =
      if wordsOf x = [] then normLines xs
      else wordsOf x :: normLines xs := by
  by_cases h : wordsOf x = [] <;> simp [normLines, h]

/-- A leading whitespace character does not change the document normal
form. -/
theorem normDoc_cons_ws {c : Char} (hc : isWs c = true) (x : Str) :
    normLines (splitLines (c :: x)) = normLines (splitLines x) := by
  by_cases hnl : c = '\n'
  · subst hnl
    rw [splitLines, if_pos rfl, normLines_cons]
    simp [wordsOf, runsWhere]
  · cases hcs : splitLines x with
    | nil => exact absurd hcs (splitLines_ne_nil x)
    | cons l ls =>
      rw [show splitLines (c :: x) = (c :: l) :: ls from by
        rw [splitLines, if_neg hnl, hcs]]
      rw [normLines_cons, normLines_cons,
        show wordsOf (c :: l) = wordsOf l from
          runsWhere_cons_neg (by simp [hc]) l]

/-- Appending one character extends the last line (or opens a fresh
one). -/
theorem splitLines_concat (c : Char) :
    ∀ x : Str, ∃ pre last, splitLines x = pre ++ [last] ∧
      splitLines (x ++ [c]) =
        if c = '\n' then pre ++ [last, []] else pre ++ [last ++ [c]] := by
  intro x
  induction x with
  | nil =>
    refine ⟨[], [], by simp [splitLines], ?_⟩
    by_cases hc : c = '\n'
    · subst hc; simp [splitLines]
    · simp [splitLines, hc]
  | cons d ds ih =>
    obtain ⟨pre, last, h1, h2⟩ := ih
    by_cases hd : d = '\n'
    · subst hd
      refine ⟨[] :: pre, last, ?_, ?_⟩
      · rw [splitLines, if_pos rfl, h1]
        rfl
      · rw [List.cons_append, splitLines, if_pos rfl, h2]
        by_cases hc : c = '\n' <;> simp [hc]
    · cases pre with
      | nil =>
        simp only [List.nil_append] at h1
        refine ⟨[], d :: last, ?_, ?_⟩
        · rw [splitLines, if_neg hd, h1]
          rfl
        · rw [List.cons_append, splitLines, if_neg hd, h2]
          by_cases hc : c = '\n' <;> simp [hc]
      | cons p ps =>
        refine ⟨(d :: p) :: ps, last, ?_, ?_⟩
        · rw [splitLines, if_neg hd, h1]
          simp
        · rw [List.cons_append, splitLines, if_neg hd, h2]
          by_cases hc : c = '\n' <;> simp [hc]

/-- A trailing whitespace character does not change the document
normal form. -/
theorem normDoc_concat_ws {c : Char} (hc : isWs c = true) (x : Str) :
    normLines (splitLines (x ++ [c])) = normLines (splitLines x) := by
  obtain ⟨pre, last, h1, h2⟩ := splitLines_concat c x
  rw [h1, h2]
  by_cases hnl : c = '\n'
  · rw [if_pos hnl, normLines_append, normLines_append]
    congr 1
  · rw [if_neg hnl, normLines_append, normLines_append]
    congr 1
    rw [normLines_cons, normLines_cons,
      show wordsOf (last ++ [c]) = wordsOf last from
        runsWhere_concat_neg (by simp [hc]) last]

/-- Leading whitespace does not change the document normal form. -/
theorem normDoc_append_ws_left :
    ∀ {w : Str}, (∀ c ∈ w, isWs c = true) →
      ∀ x : Str,
        normLines (splitLines (w ++ x)) = normLines (splitLines x) := by
  intro w
  induction w with
  | nil => intro _ x; rfl
  | cons c cs ih =>
    intro hw x
    rw [List.cons_append, normDoc_cons_ws (hw c (by simp)),
      ih fun d hd => hw d (by simp [hd])]

/-- Trailing whitespace does not change the document normal form. -/
theorem normDoc_append_ws_right :
    ∀ {w : Str}, (∀ c ∈ w, isWs c = true) →
      ∀ x : Str,
        normLines (splitLines (x ++ w)) = normLines (splitLines x) := by
  intro w
  induction w with
  | nil => intro _ x; simp
  | cons c cs ih =>
    intro hw x
    have h1 : x ++ c :: cs = (x ++ [c]) ++ cs := by simp
    rw [h1, ih (fun d hd => hw d (by simp [hd])),
      normDoc_concat_ws (hw c (by simp))]

/-- Block-level trimming does not change the document normal form. -/
theorem normDoc_trimStr (s : Str) :
    normLines (splitLines (trimStr s)) = normLines (splitLines s) := by
  obtain ⟨w2, hw2, hs2⟩ := trimRight_decomp s
  obtain ⟨w1, hw1, hs1⟩ := trimLeft_decomp (trimRight s)
  unfold trimStr
  conv_rhs => rw [hs2, normDoc_append_ws_right hw2, hs1,
    normDoc_append_ws_left hw1]

/-- `wordsOf` wrapper for a leading whitespace character. -/
theorem wordsOf_cons_ws {c : Char} (hc : isWs c = true) (x : Str) :
    wordsOf (c :: x) = wordsOf x := by
  unfold wordsOf
  exact runsWhere_cons_neg (by simp [hc]) x

/-- Dropping the matched prefix length is dropping while matching. -/
theorem drop_takeWhile_length (p : Char → Bool) :
    ∀ l : Str, l.drop (l.takeWhile p).length = l.dropWhile p := by
  intro l
  induction l with
  | nil => rfl
  | cons c cs ih =>
    by_cases hc : p c
    · rw [List.takeWhile_cons_of_pos hc, List.dropWhile_cons_of_pos hc,
        List.length_cons, List.drop_succ_cons, ih]
    · rw [List.takeWhile_cons_of_neg hc, List.dropWhile_cons_of_neg hc,
        List.length_nil, List.drop_zero]

/-- The `#` marker prefix of a line. -/
theorem takeWhile_hash_eq_replicate (l : Str) :
    l.takeWhile (· = '#') = List.replicate (headingLevel l) '#' := by
  rw [List.eq_replicate_iff]
  exact ⟨rfl, fun b hb => by simpa using List.mem_takeWhile_imp hb⟩

/-- A line is its marker prefix plus the rest. -/
theorem heading_decomp (l : Str) :
    l = List.replicate (headingLevel l) '#' ++
      l.drop (headingLevel l) := by
  calc l = l.takeWhile (· = '#') ++ l.dropWhile (· = '#') :=
        (List.takeWhile_append_dropWhile _ _).symm
    _ = _ := by
        rw [takeWhile_hash_eq_replicate]
        unfold headingLevel
        rw [drop_takeWhile_length]

/-- What a recognized heading line consists of. -/
theorem isHeading_parts {l : Str} (h : isHeading l = true) :
    1 ≤ headingLevel l ∧ headingLevel l ≤ 6 ∧
    ∃ c cs, l.drop (headingLevel l) = c :: cs ∧ isWs c = true ∧
      cs ≠ [] := by
  unfold isHeading at h
  simp only [Bool.and_eq_true, decide_eq_true_eq] at h
  cases hrest : l.drop (headingLevel l) with
  | nil =>
    rw [hrest] at h
    simp at h
  | cons c cs =>
    rw [hrest] at h
    simp only [Bool.and_eq_true] at h
    exact ⟨h.1.1, h.1.2, c, cs, rfl, h.2.1, by simpa using h.2.2⟩

/-- The marker prefix of a heading is non-empty and non-whitespace. -/
theorem hash_prefix_facts {l : Str} (h : isHeading l = true) :
    List.replicate (headingLevel l) '#' ≠ [] ∧
    ∀ d ∈ List.replicate (headingLevel l) '#',
      (fun c => !isWs c) d = true := by
  obtain ⟨h1, _, _⟩ := isHeading_parts h
  constructor
  · simp only [ne_eq, List.replicate_eq_nil_iff]
    omega
  · intro d hd
    rw [List.eq_of_mem_replicate hd]
    decide

/-- Re-rendering a heading keeps its words, and a heading line always
has words. -/
theorem heading_words {l : Str} (h : isHeading l = true) :
    wordsOf (List.replicate (headingLevel l) '#' ++
        ' ' :: headingTitle l) = wordsOf l ∧
    wordsOf l ≠ [] := by
  obtain ⟨h1, _, c, cs, hrest, hws, _⟩ := isHeading_parts h
  obtain ⟨hhne, hhall⟩ := hash_prefix_facts h
  have hL : wordsOf (List.replicate (headingLevel l) '#' ++
      ' ' :: headingTitle l) =
      List.replicate (headingLevel l) '#' :: wordsOf (headingTitle l) := by
    unfold wordsOf
    exact runsWhere_run_cons (by decide) hhne hhall _
  have hT : wordsOf (headingTitle l) = wordsOf cs := by
    unfold headingTitle
    rw [wordsOf_trimStr, hrest, wordsOf_cons_ws hws]
  have hR : wordsOf l =
      List.replicate (headingLevel l) '#' :: wordsOf cs := by
    conv_lhs => rw [heading_decomp l, hrest]
    unfold wordsOf
    exact runsWhere_run_cons (by simp [hws]) hhne hhall cs
  refine ⟨by rw [hL, hT, hR], by rw [hR]; simp⟩

/-- Trimming only removes characters. -/
theorem mem_trimStr {a : Char} {s : Str} (h : a ∈ trimStr s) :
    a ∈ s := by
  obtain ⟨w2, _, hs2⟩ := trimRight_decomp s
  obtain ⟨w1, _, hs1⟩ := trimLeft_decomp (trimRight s)
  unfold trimStr at h
  have h1 : a ∈ trimRight s := by
    rw [hs1]
    exact List.mem_append_right _ h
  rw [hs2]
  exact List.mem_append_left _ h1

/-- Loop equation: heading line with an open section. -/
theorem extractLoop_cons_some_heading {l : Str}
    (hh : isHeading l = true) (rest : List Str) (i : Nat) (o : OpenSec)
    (body : List Str) (idx total : Nat) :
    extractLoop (l :: rest) i (some (o, body)) idx total =
      closeSec o body ((i : Int) - 1) ::
        extractLoop rest (i + 1) (some (openSec l i idx, []))
          (idx + 1) total := by
  simp [extractLoop, hh]

/-- Loop equation: body line with an open section. -/
theorem extractLoop_cons_some_body {l : Str}
    (hh : isHeading l = false) (rest : List Str) (i : Nat) (o : OpenSec)
    (body : List Str) (idx total : Nat) :
    extractLoop (l :: rest) i (some (o, body)) idx total =
      extractLoop rest (i + 1) (some (o, body ++ [l])) idx total := by
  simp [extractLoop, hh]

/-- Loop equation: heading line with no open section. -/
theorem extractLoop_cons_none_heading {l : Str}
    (hh : isHeading l = true) (rest : List Str) (i idx total : Nat) :
    extractLoop (l :: rest) i none idx total =
      extractLoop rest (i + 1) (some (openSec l i idx, []))
        (idx + 1) total := by
  simp [extractLoop, hh]

/-- Loop equation: body line with no open section (the line is
dropped). -/
theorem extractLoop_cons_none_body {l : Str}
    (hh : isHeading l = false) (rest : List Str) (i idx total : Nat) :
    extractLoop (l :: rest) i none idx total =
      extractLoop rest (i + 1) none idx total := by
  simp [extractLoop, hh]

/-- With a section open, the loop always produces a section. -/
theorem extractLoop_some_ne_nil :
    ∀ (ls : List Str) (i : Nat) (o : OpenSec) (body : List Str)
      (idx total : Nat),
      extractLoop ls i (some (o, body)) idx total ≠ [] := by
  intro ls
  induction ls with
  | nil => intro i o body idx total; simp [extractLoop]
  | cons l rest ih =>
    intro i o body idx total
    by_cases hh : isHeading l
    · rw [extractLoop_cons_some_heading hh]
      simp
    · rw [extractLoop_cons_some_body (by simpa using hh)]
      exact ih (i + 1) o (body ++ [l]) idx total

/-- Rendering a non-singleton section list separates with a blank
line. -/
theorem gen_cons_ne_nil (s : DocumentSection)
    {ss : List DocumentSection} (hss : ss ≠ []) :
    generateMarkdownFromSections (s :: ss) =
      sectionMarkdown s ++ '\n' :: '\n' ::
        generateMarkdownFromSections ss := by
  cases ss with
  | nil => exact absurd rfl hss
  | cons t ts => rfl

/-- Normal form of one rendered section: heading words, then the
normalized body. -/
theorem normDoc_piece (o : OpenSec) (body : List Str) (e : Int)
    (hnl : '\n' ∉ o.title) (hbody : ∀ l ∈ body, '\n' ∉ l)
    (hlev : 1 ≤ o.level) :
    normLines (splitLines (sectionMarkdown (closeSec o body e))) =
      wordsOf (hline o) :: normLines body := by
  have hsm : sectionMarkdown (closeSec o body e) =
      hline o ++ '\n' :: ('\n' :: trimStr (joinLines body)) := by
    unfold sectionMarkdown closeSec hline
    simp
  have hnlh : '\n' ∉ hline o := by
    unfold hline
    intro hm
    rcases List.mem_append.mp hm with hm | hm
    · exact absurd (List.eq_of_mem_replicate hm) (by decide)
    · rcases List.mem_cons.mp hm with hm | hm
      · exact absurd hm (by decide)
      · exact hnl hm
  have hwne : wordsOf (hline o) ≠ [] := by
    unfold hline wordsOf
    rw [runsWhere_run_cons (by decide)
      (by simp only [ne_eq, List.replicate_eq_nil_iff]; omega)
      (fun d hd => by rw [List.eq_of_mem_replicate hd]; decide) o.title]
    simp
  rw [hsm, splitLines_append, splitLines_single _ hnlh,
    show splitLines ('\n' :: trimStr (joinLines body)) =
      [] :: splitLines (trimStr (joinLines body)) from by
      rw [splitLines, if_pos rfl]]
  rw [show ([hline o] : List Str) ++
      [] :: splitLines (trimStr (joinLines body)) =
      [hline o] ++ ([] :: splitLines (trimStr (joinLines body)))
      from rfl,
    normLines_append, normLines_cons, if_neg hwne, normLines_cons,
    if_pos (show wordsOf ([] : Str) = [] from rfl), normDoc_trimStr]
  cases body with
  | nil => simp [joinLines, splitLines, normLines, wordsOf, runsWhere]
  | cons b bs =>
    rw [splitLines_joinLines (b :: bs) (List.cons_ne_nil b bs) hbody]
    simp [normLines]

/-- The loop with an open section renders the open heading's words,
then the accumulated body and remaining lines, normalized. -/
theorem extractLoop_norm_open :
    ∀ (ls : List Str) (o : OpenSec) (body : List Str)
      (i idx total : Nat),
      1 ≤ o.level → '\n' ∉ o.title →
      (∀ l ∈ body, '\n' ∉ l) → (∀ l ∈ ls, '\n' ∉ l) →
      normLines (splitLines (generateMarkdownFromSections
        (extractLoop ls i (some (o, body)) idx total))) =
      wordsOf (hline o) :: normLines (body ++ ls) := by
  intro ls
  induction ls with
  | nil =>
    intro o body i idx total hlev hnl hbody _
    rw [show extractLoop [] i (some (o, body)) idx total =
      [closeSec o body ((total : Int) - 1)] from rfl]
    rw [show generateMarkdownFromSections
        [closeSec o body ((total : Int) - 1)] =
      sectionMarkdown (closeSec o body ((total : Int) - 1)) from rfl]
    rw [normDoc_piece o body _ hnl hbody hlev, List.append_nil]
  | cons l rest ih =>
    intro o body i idx total hlev hnl hbody hls
    by_cases hh : isHeading l
    · rw [extractLoop_cons_some_heading hh,
        gen_cons_ne_nil _
          (extractLoop_some_ne_nil rest (i + 1) _ [] (idx + 1) total),
        splitLines_append,
        show splitLines ('\n' :: generateMarkdownFromSections
            (extractLoop rest (i + 1) (some (openSec l i idx, []))
              (idx + 1) total)) =
          [] :: splitLines (generateMarkdownFromSections
            (extractLoop rest (i + 1) (some (openSec l i idx, []))
              (idx + 1) total)) from by rw [splitLines, if_pos rfl],
        normLines_append, normDoc_piece o body _ hnl hbody hlev,
        normLines_cons,
        if_pos (show wordsOf ([] : Str) = [] from rfl),
        ih (openSec l i idx) [] (i + 1) (idx + 1) total
          (isHeading_parts hh).1
          (fun hm => hls l (by simp)
            (List.mem_of_mem_drop (mem_trimStr hm)))
          (by simp) (fun x hx => hls x (by simp [hx])),
        show hline (openSec l i idx) =
          List.replicate (headingLevel l) '#' ++
            ' ' :: headingTitle l from rfl,
        (heading_words hh).1, List.nil_append,
        normLines_append body (l :: rest), normLines_cons l rest,
        if_neg (heading_words hh).2]
      simp
    · have hh' : isHeading l = false := by simpa using hh
      rw [extractLoop_cons_some_body hh',
        ih o (body ++ [l]) (i + 1) idx total hlev hnl
          (fun x hx => by
            rcases List.mem_append.mp hx with hx | hx
            · exact hbody x hx
            · rw [List.mem_singleton.mp hx]
              exact hls l (by simp))
          (fun x hx => hls x (by simp [hx]))]
      simp

/-- The loop with no open section: every pre-heading (blank) line is
dropped, then sections render as above. -/
theorem extractLoop_norm_none :
    ∀ (ls : List Str) (i idx total : Nat),
      (∀ l ∈ ls, '\n' ∉ l) →
      (∀ l ∈ ls.takeWhile (fun l => !isHeading l), trimStr l = []) →
      normLines (splitLines (generateMarkdownFromSections
        (extractLoop ls i none idx total))) = normLines ls := by
  intro ls
  induction ls with
  | nil =>
    intro i idx total _ _
    simp [extractLoop, generateMarkdownFromSections, joinSep2,
      splitLines, normLines, wordsOf, runsWhere]
  | cons l rest ih =>
    intro i idx total hnl hpre
    by_cases hh : isHeading l
    · rw [extractLoop_cons_none_heading hh,
        extractLoop_norm_open rest (openSec l i idx) [] (i + 1)
          (idx + 1) total (isHeading_parts hh).1
          (fun hm => hnl l (by simp)
            (List.mem_of_mem_drop (mem_trimStr hm)))
          (by simp) (fun x hx => hnl x (by simp [hx])),
        List.nil_append,
        show hline (openSec l i idx) =
          List.replicate (headingLevel l) '#' ++
            ' ' :: headingTitle l from rfl,
        (heading_words hh).1, normLines_cons l rest,
        if_neg (heading_words hh).2]
    · have hh' : isHeading l = false := by simpa using hh
      rw [extractLoop_cons_none_body hh']
      have hl0 : trimStr l = [] := hpre l (by
        rw [List.takeWhile_cons_of_pos (by simp [hh'])]
        simp)
      have hwl : wordsOf l = [] := by
        rw [← wordsOf_trimStr, hl0]
        rfl
      rw [ih (i + 1) idx total (fun x hx => hnl x (by simp [hx]))
          (fun x hx => hpre x (by
            rw [List.takeWhile_cons_of_pos (by simp [hh'])]
            simp [hx])),
        normLines_cons, if_pos hwl]

/-- C4, amended.  For every document whose lines before the first
heading line are all blank (whitespace-only), concatenating in order
the heading line and body of each extracted section reconstructs the
document up to whitespace: line by line, each line's
whitespace-separated words agree, ignoring blank lines.  (The original
claim fails for documents with non-blank pre-heading content, which the
extractor drops; see the counterexample.) -/
theorem claim_C4_reconstruction (content : Str)
    (hpre : ∀ l ∈ (splitLines content).takeWhile (fun l => !isHeading l),
      trimStr l = []) :
    normDoc (generateMarkdownFromSections (extractSections content)) =
      normDoc content := by
  unfold normDoc extractSections
  exact extractLoop_norm_none (splitLines content) 0 0
    (splitLines content).length
    (fun l hl => splitLines_no_newline content l hl) hpre

/-- C4 witness: a two-section document with messy interior whitespace
round-trips. -/
theorem claim_C4_reconstruction_witness :
    (∀ l ∈ (splitLines
        "# Brand\ncolors  and   fonts\n\n## Usage\nok".data).takeWhile
        (fun l => !isHeading l), trimStr l = []) ∧
    normDoc (generateMarkdownFromSections (extractSections
        "# Brand\ncolors  and   fonts\n\n## Usage\nok".data)) =
      normDoc "# Brand\ncolors  and   fonts\n\n## Usage\nok".data :=
  ⟨by decide, claim_C4_reconstruction _ (by decide)⟩

/-- C7 witness: adding a `Logos` section to the sample state makes the
fresh term `"logo"` findable. -/
theorem claim_C7_update_findable_witness :
    2 < "logo".data.length ∧
    isPlainTerm (lower "logo".data) = true ∧
    0 < sampleState.config.maxResults ∧
    sampleState.config.enableKeywordSearch = true ∧
    (∃ s ∈ [({ id := "section-4", slug := "logos".data,
               title := "Logos".data,
               content := "Logo guidelines and usage examples.".data,
               level := 2 } : DocumentSection)],
      0 < 3 * countOccs (lower "logo".data) (lower s.title) +
          countOccs (lower "logo".data) (lower s.content)) ∧
    ∃ resp,
      search
          (updateSections sampleState
            [{ id := "section-4", slug := "logos".data,
               title := "Logos".data,
               content := "Logo guidelines and usage examples.".data,
               level := 2 }])
          "logo".data none = .ok resp ∧
      0 < resp.results.length :=
  ⟨by decide, by decide, by with_unfolding_all decide,
    by with_unfolding_all decide, by with_unfolding_all decide,
    claim_C7_update_findable sampleState
      [{ id := "section-4", slug := "logos".data, title := "Logos".data,
         content := "Logo guidelines and usage examples.".data,
         level := 2 }]
      "logo".data (by decide) (by decide)
      (by with_unfolding_all decide) (by with_unfolding_all decide)
      (by with_unfolding_all decide)⟩
theorem runsWhere_eq_nil {p : Char → Bool} :
    ∀ {s : Str}, (∀ c ∈ s, p c = false) → runsWhere p s = [] := by
  intro s
  induction s with
  | nil => intro _; rfl
  | cons c cs ih =>
    intro h
    cases cs with
    | nil =>
      rw [runsWhere, if_neg (by simp [h c (by simp)])]
    | cons d ds =>
      rw [runsWhere, if_pos (by simp [h c (by simp)])]
      exact ih fun x hx => h x (by simp [hx])

/-- Lower-casing keeps whitespace whitespace. -/
theorem toLower_ws {c : Char} (h : isWs c = true) :
    isWs c.toLower = true := by
  simp only [isWs, Char.isWhitespace, decide_eq_true_eq,
    Bool.or_eq_true, decide_eq_true_eq] at h
  rcases h with ((h | h) | h) | h <;> subst h <;> decide

/-- Whitespace is never a word character. -/
theorem ws_not_word {c : Char} (h : isWs c = true) :
    isWordChar c = false := by
  simp only [isWs, Char.isWhitespace, decide_eq_true_eq,
    Bool.or_eq_true, decide_eq_true_eq] at h
  rcases h with ((h | h) | h) | h <;> subst h <;> decide

/-- A whitespace-only query tokenizes to no terms. -/
theorem queryTermsOf_allWs {q : Str} (hq : ∀ c ∈ q, isWs c = true) :
    queryTermsOf q = [] := by
  unfold queryTermsOf wordsOf
  rw [runsWhere_eq_nil]
  · rfl
  · intro c hc
    obtain ⟨d, hd, rfl⟩ := List.mem_map.mp hc
    simp [toLower_ws (hq d hd)]

/-- A whitespace-only text embeds to the zero vector. -/
theorem generateEmbedding_allWs {q : Str}
    (hq : ∀ c ∈ q, isWs c = true) :
    generateEmbedding q = zeroVec embedDim := by
  unfold generateEmbedding rawCounts
  rw [runsWhere_eq_nil]
  · show l2normalize (zeroVec embedDim) = zeroVec embedDim
    unfold l2normalize
    rw [if_pos (by with_unfolding_all decide)]
  · intro c hc
    obtain ⟨d, hd, rfl⟩ := List.mem_map.mp hc
    exact ws_not_word (toLower_ws (hq d hd))

/-- Cosine similarity of the zero query vector with any equal-length
vector is 0 (the zero-magnitude guard). -/
theorem cosineSimilarity_zeroVec (e : List ℚ)
    (hlen : (zeroVec embedDim).length = e.length) :
    cosineSimilarity (zeroVec embedDim) e = .ok 0 := by
  unfold cosineSimilarity
  rw [if_neg (by simp [hlen])]
  have hA : ((zeroVec embedDim).map fun x => x * x).sum = 0 := by
    with_unfolding_all decide
  have hs : Rat.sqrt 0 = 0 := by with_unfolding_all decide
  simp [hA, hs]

/-- With no section scoring at least a positive `minScore` against the
zero query vector, the semantic loop yields nothing (or aborts on a
dimension mismatch, which the wrapper also converts to nothing). -/
theorem semanticCandidates_zeroVec (cfg : SearchConfig) (q : Str)
    (hmin : 0 < cfg.minScore) :
    ∀ secs : List DocumentSection,
      semanticCandidates (zeroVec embedDim) cfg q secs = .ok [] ∨
      ∃ e, semanticCandidates (zeroVec embedDim) cfg q secs =
        .error e := by
  intro secs
  induction secs with
  | nil => exact Or.inl rfl
  | cons s ss ih =>
    cases hemb : s.embedding with
    | none =>
      simp only [semanticCandidates, hemb]
      exact ih
    | some e =>
      simp only [semanticCandidates, hemb]
      by_cases hlen : (zeroVec embedDim).length = e.length
      · rw [cosineSimilarity_zeroVec e hlen]
        have hms : ¬cfg.minScore ≤ (0 : ℚ) := not_le.mpr hmin
        simp only [bind, Except.bind, hms, if_false, reduceIte]
        exact ih
      · have herr : cosineSimilarity (zeroVec embedDim) e =
            .error "Vector dimensions must match" := by
          unfold cosineSimilarity
          rw [if_pos hlen]
        rw [herr]
        exact Or.inr ⟨_, rfl⟩

/-- The keyword loop with no query terms admits no section. -/
theorem keywordCandidates_nil_terms (q : Str) :
    ∀ secs : List DocumentSection,
      keywordCandidates [] q secs = .ok [] := by
  intro secs
  induction secs with
  | nil => rfl
  | cons s ss ih =>
    rw [keywordCandidates]
    simp only [sectionRawScore, bind, Except.bind]
    rw [if_neg (by omega)]
    exact ih

/-- C2.  For every empty or whitespace-only query, `search` returns
zero results and no error (for any state whose `minScore` threshold is
positive, as the default 0.1 is): the keyword strategy tokenizes to no
terms, and the zero query vector scores 0 < minScore against every
section. -/
theorem claim_C2_empty_query (st : ServiceState) (q : Str)
    (hq : ∀ c ∈ q, isWs c = true) (hmin : 0 < st.config.minScore) :
    search st q none =
      .ok { query := q, results := [], totalResults := 0 } := by
  have hsem : ∀ limit, semanticSearch st.sections st.config q limit = [] := by
    intro limit
    unfold semanticSearch
    rw [generateEmbedding_allWs hq]
    rcases semanticCandidates_zeroVec st.config q hmin st.sections with
      h | ⟨e, h⟩ <;> simp [h, bind, Except.bind, jsSortDesc, pure,
        Except.pure]
  have hkw : ∀ limit, keywordSearch st.sections q limit =
      .ok [] := by
    intro limit
    unfold keywordSearch
    rw [queryTermsOf_allWs hq, keywordCandidates_nil_terms q st.sections]
    simp [bind, Except.bind, jsSortDesc, pure, Except.pure]
  unfold search
  by_cases hks : st.config.enableKeywordSearch <;>
    by_cases hss : st.config.enableSemanticSearch <;>
      simp [hks, hss, hsem, hkw, bind, Except.bind, pure, Except.pure,
        mergeResults, mergedList, jsSortDesc]

/-- C2 witness: the empty query and a three-space query on the sample
state. -/
theorem claim_C2_empty_query_witness :
    (∀ c ∈ ("" : String).data, isWs c = true) ∧
    (∀ c ∈ "   ".data, isWs c = true) ∧
    0 < sampleState.config.minScore ∧
    search sampleState "".data none =
      .ok { query := "".data, results := [], totalResults := 0 } ∧
    search sampleState "   ".data none =
      .ok { query := "   ".data, results := [], totalResults := 0 } :=
  ⟨by decide, by decide, by with_unfolding_all decide,
    claim_C2_empty_query sampleState "".data (by decide)
      (by with_unfolding_all decide),
    claim_C2_empty_query sampleState "   ".data (by decide)
      (by with_unfolding_all decide)⟩

/-- C6.  Through the route, a caller-supplied limit in `[1, 100]` bounds
the number of returned results, and a limit outside `[1, 100]` is
rejected with a `ValidationError` (never silently clamped to a valid
value). -/
theorem claim_C6_limit_validation (st : ServiceState) (q : Str) (n : Int) :
    (1 ≤ n → n ≤ 100 →
      ∀ resp, routeSearch st q (some n) = .ok resp →
        resp.results.length ≤ n.toNat) ∧
    (n < 1 ∨ 100 < n → ∃ e, routeSearch st q (some n) = .error e) := by
  constructor
  · intro h1 h100 resp hok
    unfold routeSearch at hok
    by_cases h1q : q.isEmpty
    · rw [if_pos h1q] at hok
      exact Except.noConfusion hok
    rw [if_neg h1q] at hok
    by_cases h2q : trimStr q = []
    · rw [if_pos h2q] at hok
      exact Except.noConfusion hok
    rw [if_neg h2q] at hok
    by_cases h3q : 500 < q.length
    · rw [if_pos h3q] at hok
      exact Except.noConfusion hok
    rw [if_neg h3q] at hok
    simp only [routeLimit] at hok
    have hguard : (n < 1 || 100 < n) = false := by
      simp only [Bool.or_eq_false_iff, decide_eq_false_iff_not]
      omega
    rw [hguard] at hok
    simp only [Bool.false_eq_true, if_false, reduceIte] at hok
    exact search_results_length_le st (trimStr q) n.toNat
      (by omega) resp hok
  · intro hbad
    unfold routeSearch
    by_cases h1q : q.isEmpty
    · rw [if_pos h1q]
      exact ⟨_, rfl⟩
    rw [if_neg h1q]
    by_cases h2q : trimStr q = []
    · rw [if_pos h2q]
      exact ⟨_, rfl⟩
    rw [if_neg h2q]
    by_cases h3q : 500 < q.length
    · rw [if_pos h3q]
      exact ⟨_, rfl⟩
    rw [if_neg h3q]
    simp only [routeLimit]
    have hguard : (n < 1 || 100 < n) = true := by
      rcases hbad with h | h <;> simp [h ]
    rw [hguard]
    simp only [if_true, reduceIte]
    exact ⟨_, rfl⟩

/-- C6 witness: at the sample state, `limit = 1` yields at most one
result for a query matching both sections, and `limit = 0` and
`limit = 101` are rejected. -/
theorem claim_C6_limit_validation_witness :
    ((1 : Int) ≤ 1 ∧ (1 : Int) ≤ 100 ∧
      ∀ resp, routeSearch sampleState "brand".data (some 1) = .ok resp →
        resp.results.length ≤ (1 : Int).toNat) ∧
    (((0 : Int) < 1 ∨ (100 : Int) < 0) →
      ∃ e, routeSearch sampleState "brand".data (some 0) = .error e) ∧
    (((101 : Int) < 1 ∨ (100 : Int) < 101) →
      ∃ e, routeSearch sampleState "brand".data (some 101) = .error e) :=
  ⟨⟨le_refl 1, by decide,
    (claim_C6_limit_validation sampleState "brand".data 1).1
      (by decide) (by decide)⟩,
   fun _ => (claim_C6_limit_validation sampleState "brand".data 0).2
     (Or.inl (by decide)),
   fun _ => (claim_C6_limit_validation sampleState "brand".data 101).2
     (Or.inr (by decide))⟩

end BrandCheck
